import Mathlib

/-!
Verification of the vatkali frame-rendering service (`src/app/main.py`).

The Python source is shallowly embedded: pure helpers become Lean functions on
`String`/`List Char`, Python `float` money values are modelled as exact
rationals (`ℚ`), network and browser effects are modelled as explicit oracles
(functions from attempt number to outcome), and CPython library routines used
by the source (`urllib.parse`, `str.replace`, `base64`, `hashlib.md5`) are
modelled directly at the character/byte level.  Machine integers appear only
inside MD5, where arithmetic is carried out in `Nat` with explicit `% 2^32`.
-/

/-- ASCII lower-casing of one character, modelling CPython `str.lower` on the
ASCII range (the only range the source relies on; non-ASCII characters are
left unchanged). -/
def lowerChar (c : Char) : Char :=
  if 'A' ≤ c ∧ c ≤ 'Z' then Char.ofNat (c.toNat + 32) else c

/-- ASCII upper-casing of one character, modelling CPython `str.upper` on the
ASCII range. -/
def upperChar (c : Char) : Char :=
  if 'a' ≤ c ∧ c ≤ 'z' then Char.ofNat (c.toNat - 32) else c

/-- Lower-case a character list. -/
def lowerStr (l : List Char) : List Char := l.map lowerChar

/-- Whitespace recognised by CPython `str.split()` / `str.strip()` (ASCII
part: space, tab, newline, carriage return, vertical tab, form feed). -/
def isPyWs (c : Char) : Bool :=
  c == ' ' || c == '\t' || c == '\n' || c == '\r' || c == '\x0b' || c == '\x0c'

/-- CPython `str.strip()`: drop leading and trailing whitespace. -/
def pyStrip (l : List Char) : List Char :=
  ((l.dropWhile isPyWs).reverse.dropWhile isPyWs).reverse

/-- Helper for `str.split()` with no separator: accumulates the current word
(reversed) and emits maximal nonempty runs of non-whitespace characters. -/
def wsWordsAux (acc : List Char) : List Char → List (List Char)
  | [] => if acc = [] then [] else [acc.reverse]
  | c :: r =>
    if isPyWs c then
      if acc = [] then wsWordsAux [] r else acc.reverse :: wsWordsAux [] r
    else wsWordsAux (c :: acc) r

/-- CPython `s.split()` (no separator): whitespace-delimited nonempty words. -/
def pySplitWs (l : List Char) : List (List Char) := wsWordsAux [] l

/-- `norm_price` (main.py line 34): `" ".join((s or "").split()).strip()`. -/
def norm_price (s : String) : String :=
  ⟨pyStrip (List.intercalate [' '] (pySplitWs s.data))⟩

/-- Fuel-driven model of CPython `str.replace(pat, rep)`: scan left to right,
replacing non-overlapping occurrences of `pat`.  The fuel is an upper bound on
the number of scanning steps; one character (or one whole match) is consumed
per step, so `l.length` fuel always suffices.  The source only ever replaces
nonempty patterns. -/
def replaceAux (pat rep : List Char) : Nat → List Char → List Char
  | _, [] => []
  | 0, l => l
  | fuel + 1, c :: r =>
    if pat.isPrefixOf (c :: r) ∧ pat ≠ [] then
      rep ++ replaceAux pat rep fuel ((c :: r).drop pat.length)
    else c :: replaceAux pat rep fuel r

/-- CPython `s.replace(pat, rep)` for nonempty `pat`. -/
def pyReplace (s pat rep : String) : String :=
  ⟨replaceAux pat.data rep.data s.data.length s.data⟩

/-- `format_currency_tr` (main.py line 38): normalize, then
`x.replace("TRY", "TL").replace("try", "TL")`. -/
def format_currency_tr (s : String) : String :=
  let x := norm_price s
  if x = "" then x else pyReplace (pyReplace x "TRY" "TL") "try" "TL"

/-- Characters kept by `re.sub(r"[^\d.,]", "", t)` in `_parse_money_to_float`. -/
def moneyKeepChar (c : Char) : Bool := c.isDigit || c == '.' || c == ','

/-- Decides `t.rfind(",") > t.rfind(".")`, assuming both separators occur in
`t`: the separator found first from the right is the one with the larger
rightmost index. -/
def lastSepIsComma (l : List Char) : Bool :=
  match l.reverse.find? (fun c => c == ',' || c == '.') with
  | some ',' => true
  | _ => false

/-- Separator resolution step of `_parse_money_to_float` (main.py lines
144-152): with both separators present the rightmost one becomes the decimal
point and the other is discarded; a lone comma becomes a decimal point. -/
def sepTransform (t : List Char) : List Char :=
  if t.contains '.' && t.contains ',' then
    if lastSepIsComma t then
      (t.filter (fun c => c != '.')).map (fun c => if c == ',' then '.' else c)
    else t.filter (fun c => c != ',')
  else if t.contains ',' then t.map (fun c => if c == ',' then '.' else c)
  else t

/-- Value of a list of decimal digit characters. -/
def digitsToNat (l : List Char) : Nat :=
  l.foldl (fun a c => a * 10 + (c.toNat - 48)) 0

/-- CPython `float(t)` for a string drawn from digits and `.` (the only
alphabet reachable after `sepTransform`): parsing succeeds exactly when `t`
contains at least one digit, at most one dot, and nothing else; on success the
integer-part and fraction-part digit lists are returned. -/
def pyFloatParse (t : List Char) : Option (List Char × List Char) :=
  if (t.all fun c => c.isDigit || c == '.') && (t.any Char.isDigit)
      && (t.count '.' ≤ 1) then
    some (t.takeWhile (fun c => c != '.'), (t.dropWhile (fun c => c != '.')).drop 1)
  else none

/-- Exact rational value of integer digits `ip` and fraction digits `fp`;
`roundDouble` below converts it to the binary `float` CPython stores. -/
def ratOfParts (ip fp : List Char) : ℚ :=
  (digitsToNat ip : ℚ) + (digitsToNat fp : ℚ) / (10 : ℚ) ^ fp.length

/-- CPython `round` to an integer: round half to even (banker's rounding). -/
def pyRound (q : ℚ) : ℤ :=
  let f := ⌊q⌋
  let r := q - (f : ℚ)
  if r < 1 / 2 then f
  else if 1 / 2 < r then f + 1
  else if f % 2 = 0 then f else f + 1

/-- Fuel-driven binary logarithm on naturals (`natLog2 n n` is `⌊log₂ n⌋` for
`n > 0`); structural in the fuel, so it evaluates in the kernel. -/
def natLog2 : Nat → Nat → Nat
  | 0, _ => 0
  | fuel + 1, n => if n ≥ 2 then natLog2 fuel (n / 2) + 1 else 0

/-- `2 ^ e` as a rational, for an integer exponent. -/
def qpow2 (e : ℤ) : ℚ :=
  if 0 ≤ e then ((2 ^ e.toNat : ℕ) : ℚ) else 1 / ((2 ^ (-e).toNat : ℕ) : ℚ)

/-- Binade exponent of a positive rational: the unique `e` with
`2 ^ e ≤ m < 2 ^ (e + 1)`, located from the bit lengths of numerator and
denominator and one comparison. -/
def qexpZ (m : ℚ) : ℤ :=
  let n := m.num.toNat
  let e0 : ℤ := (natLog2 n n : ℤ) - (natLog2 m.den m.den : ℤ)
  if m < qpow2 e0 then e0 - 1 else e0

/-- Round a rational to the nearest IEEE-754 binary64 value (53 significant
bits, ties to the even significand), the arithmetic CPython `float` uses.  The
exponent is left unbounded: overflow to infinity and subnormal underflow
(money strings with more than roughly 300 integer or fraction digits) are
outside the modelled range, and no claim exercises them. -/
def roundDouble (q : ℚ) : ℚ :=
  if q = 0 then 0
  else
    let e := qexpZ |q|
    if e ≤ 52 then (pyRound (q * 2 ^ (52 - e).toNat) : ℚ) / 2 ^ (52 - e).toNat
    else (pyRound (q / 2 ^ (e - 52).toNat) : ℚ) * 2 ^ (e - 52).toNat

/-- `_parse_money_to_float` (main.py line 136): strip everything except
digits and separators, resolve separators, parse as a nonnegative number; the
result is the decimal value correctly rounded to a double, as CPython
`float(t)` produces. -/
def parse_money_to_float (s : String) : Option ℚ :=
  if s = "" then none
  else
    let t := s.data.filter moneyKeepChar
    if t = [] then none
    else (pyFloatParse (sepTransform t)).map fun p => roundDouble (ratOfParts p.1 p.2)

/-- `calc_discount_percent` (main.py line 160).  The guard
`not p or not s or p <= 0 or s >= p` is falsy-aware: a `None` parse and a
parsed value of `0.0` both trigger it.  The percentage
`int(round((1 - (s / p)) * 100))` is computed in IEEE-754 double precision:
every intermediate operation rounds to the nearest double (`roundDouble`), and
`round` applies banker's rounding to the exact value of the final double. -/
def calc_discount_percent (price_str sale_str : String) : Option ℤ :=
  match parse_money_to_float price_str, parse_money_to_float sale_str with
  | some p, some s =>
    if p = 0 ∨ s = 0 ∨ p ≤ 0 ∨ s ≥ p then none
    else
      let pct := pyRound (roundDouble (roundDouble (1 - roundDouble (s / p)) * 100))
      if pct ≤ 0 then none else some pct
  | _, _ => none

/-- `hidden_flags` (main.py line 92): `(old_hidden, new_hidden, single_hidden)`
markers for the price template regions. -/
def hidden_flags (price sale : String) : String × String × String :=
  let p := norm_price price
  let s := norm_price sale
  if s = "" ∨ s = p then ("hidden", "hidden", "") else ("", "", "hidden")

/-- UTF-8 encoding of one code point, as used by CPython `str.encode("utf-8")`
(and by `urllib.parse.quote` before percent-encoding). -/
def utf8EncodeChar (c : Char) : List Nat :=
  let n := c.toNat
  if n < 0x80 then [n]
  else if n < 0x800 then [0xC0 + n / 0x40, 0x80 + n % 0x40]
  else if n < 0x10000 then
    [0xE0 + n / 0x1000, 0x80 + n / 0x40 % 0x40, 0x80 + n % 0x40]
  else
    [0xF0 + n / 0x40000, 0x80 + n / 0x1000 % 0x40, 0x80 + n / 0x40 % 0x40,
      0x80 + n % 0x40]

/-- UTF-8 encoding of a string. -/
def utf8EncodeStr (s : List Char) : List Nat := s.flatMap utf8EncodeChar

/-- Is `b` a UTF-8 continuation byte? -/
abbrev utf8Cont (b : Nat) : Prop := 0x80 ≤ b ∧ b < 0xC0

/-- The Unicode replacement character emitted by `errors="replace"` decoding. -/
def replacementChar : Char := '�'

/-- Accept a decoded scalar value if it is in range (at least `lo`, so not an
overlong encoding, and not a surrogate); otherwise substitute the replacement
character, as CPython's `errors="replace"` handler does. -/
def utf8DecodeValid (v lo : Nat) : Char :=
  if lo ≤ v ∧ (v < 0xD800 ∨ (0xE000 ≤ v ∧ v < 0x110000)) then Char.ofNat v
  else replacementChar

/-- One step of greedy UTF-8 decoding with replacement-character error
handling: decode the character introduced by lead byte `b` (consuming its
continuation bytes from `rest`), returning it and the unconsumed remainder. -/
def utf8Step (b : Nat) (rest : List Nat) : Char × List Nat :=
  if b < 0x80 then (Char.ofNat b, rest)
  else if 0xC0 ≤ b ∧ b < 0xE0 then
    match rest with
    | b1 :: r1 =>
      if utf8Cont b1 then
        (utf8DecodeValid ((b - 0xC0) * 0x40 + (b1 - 0x80)) 0x80, r1)
      else (replacementChar, b1 :: r1)
    | [] => (replacementChar, [])
  else if 0xE0 ≤ b ∧ b < 0xF0 then
    match rest with
    | b1 :: b2 :: r2 =>
      if utf8Cont b1 ∧ utf8Cont b2 then
        (utf8DecodeValid ((b - 0xE0) * 0x1000 + (b1 - 0x80) * 0x40 + (b2 - 0x80))
            0x800, r2)
      else (replacementChar, b1 :: b2 :: r2)
    | rest2 => (replacementChar, rest2)
  else if 0xF0 ≤ b ∧ b < 0xF8 then
    match rest with
    | b1 :: b2 :: b3 :: r3 =>
      if utf8Cont b1 ∧ utf8Cont b2 ∧ utf8Cont b3 then
        (utf8DecodeValid
            ((b - 0xF0) * 0x40000 + (b1 - 0x80) * 0x1000 + (b2 - 0x80) * 0x40
              + (b3 - 0x80)) 0x10000, r3)
      else (replacementChar, b1 :: b2 :: b3 :: r3)
    | rest2 => (replacementChar, rest2)
  else (replacementChar, rest)

/-- Fuel-driven greedy UTF-8 decoding: each step consumes at least the lead
byte, so fuel `l.length` always suffices. -/
def utf8DecodeAux : Nat → List Nat → List Char
  | 0, _ => []
  | _ + 1, [] => []
  | fuel + 1, b :: rest =>
    let p := utf8Step b rest
    p.1 :: utf8DecodeAux fuel p.2

/-- Greedy UTF-8 decoding of a byte list with replacement-character error
handling, modelling `bytes.decode("utf-8", errors="replace")` (the exact
number of replacement characters produced for malformed runs may differ from
CPython; well-formed input, the only case the proofs rely on, agrees). -/
def utf8Decode (l : List Nat) : List Char := utf8DecodeAux l.length l

/-- Value of one hexadecimal digit character, if it is one. -/
def hexDigitVal (c : Char) : Option Nat :=
  if '0' ≤ c ∧ c ≤ '9' then some (c.toNat - 48)
  else if 'a' ≤ c ∧ c ≤ 'f' then some (c.toNat - 87)
  else if 'A' ≤ c ∧ c ≤ 'F' then some (c.toNat - 55)
  else none

/-- Upper-case hexadecimal digits, as emitted by `urllib.parse.quote`. -/
def hexUpperDigit (n : Nat) : Char := "0123456789ABCDEF".data.getD (n % 16) '0'

/-- Percent-encoding of one byte: `%XX` with upper-case hex. -/
def pctByte (b : Nat) : List Char := ['%', hexUpperDigit (b / 16), hexUpperDigit (b % 16)]

/-- The characters `urllib.parse.quote` never encodes (with `safe=""`, as
`urlencode`/`quote_plus` use): ASCII alphanumerics and `_.-~`. -/
def urlSafeChar (c : Char) : Bool :=
  c.isAlphanum || c == '_' || c == '.' || c == '-' || c == '~'

/-- `urllib.parse.quote_plus(s, safe="")`: spaces become `+`, safe characters
pass through, everything else is percent-encoded byte-by-byte in UTF-8. -/
def quote_plus (s : List Char) : List Char :=
  s.flatMap fun c =>
    if c == ' ' then ['+']
    else if urlSafeChar c then [c]
    else (utf8EncodeChar c).flatMap pctByte

/-- Collect the maximal leading run of `%XX` groups (two hex digits each) as
bytes, returning the bytes and the unconsumed remainder. -/
def collectPct : List Char → List Nat × List Char
  | c :: a :: b :: rest =>
    if c = '%' then
      match hexDigitVal a, hexDigitVal b with
      | some x, some y =>
        let p := collectPct rest
        ((16 * x + y) :: p.1, p.2)
      | _, _ => ([], c :: a :: b :: rest)
    else ([], c :: a :: b :: rest)
  | l => ([], l)

/-- One chunk of the `urllib.parse.unquote` scan: a maximal `%XX` run is
decoded as UTF-8 (with replacement), any other character passes through.
Returns the emitted characters and the unconsumed remainder, which is always
shorter than the input, so fuel `l.length` suffices in `unquoteAux`. -/
def unquoteStep (c : Char) (rest : List Char) : List Char × List Char :=
  if c = '%' then
    match rest with
    | a :: b :: r2 =>
      match hexDigitVal a, hexDigitVal b with
      | some _, some _ =>
        let p := collectPct (c :: a :: b :: r2)
        (utf8Decode p.1, p.2)
      | _, _ => ([c], rest)
    | _ => ([c], rest)
  else ([c], rest)

/-- See `unquoteStep`; the fuel decreases once per emitted chunk. -/
def unquoteAux : Nat → List Char → List Char
  | 0, l => l
  | _ + 1, [] => []
  | fuel + 1, c :: rest =>
    let p := unquoteStep c rest
    p.1 ++ unquoteAux fuel p.2

/-- `urllib.parse.unquote`. -/
def unquote (l : List Char) : List Char := unquoteAux l.length l

/-- `urllib.parse.unquote_plus`: `+` becomes a space, then percent-decoding. -/
def unquote_plus (l : List Char) : List Char :=
  unquote (l.map fun c => if c == '+' then ' ' else c)

/-- CPython `str.split(sep)` for a one-character separator: the empty string
yields `[""]`, adjacent separators yield empty chunks. -/
def splitSep (sep : Char) : List Char → List (List Char)
  | [] => [[]]
  | c :: r =>
    let s := splitSep sep r
    if c == sep then [] :: s else (c :: s.headD []) :: s.tail

/-- CPython `str.split("=", 1)` as used by `parse_qsl`, completed with an
empty value when `=` is absent (the `keep_blank_values=True` path). -/
def splitFirstEq (l : List Char) : List Char × List Char :=
  (l.takeWhile (fun c => c != '='), (l.dropWhile (fun c => c != '=')).tail)

/-- `urllib.parse.parse_qsl(qs, keep_blank_values=True)`: split on `&`, skip
empty chunks, split each chunk at its first `=`, percent-decode both sides. -/
def parse_qsl (qs : List Char) : List (List Char × List Char) :=
  (splitSep '&' qs).filterMap fun chunk =>
    if chunk = [] then none
    else
      let nv := splitFirstEq chunk
      some (unquote_plus nv.1, unquote_plus nv.2)

/-- `urllib.parse.urlencode(q, doseq=True)` on string pairs: quote each side
with `quote_plus`, join as `k=v` pairs with `&`. -/
def urlencode (l : List (List Char × List Char)) : List Char :=
  List.intercalate ['&'] (l.map fun kv => quote_plus kv.1 ++ '=' :: quote_plus kv.2)

/-- Characters permitted inside a URL scheme after its first letter. -/
def schemeChar (c : Char) : Bool := c.isAlphanum || c == '+' || c == '-' || c == '.'

/-- Scan for a scheme terminator: collect `schemeChar`s up to a `:`; fail on
any other character or on running out of input.  Equivalent to CPython's
"find the first `:` and validate everything before it" (a non-scheme character
before the first `:` makes both fail). -/
def schemeScan : List Char → Option (List Char × List Char)
  | [] => none
  | c :: rest =>
    if c = ':' then some ([], rest)
    else if schemeChar c then
      match schemeScan rest with
      | some p => some (c :: p.1, p.2)
      | none => none
    else none

/-- The scheme-splitting step of `urllib.parse.urlsplit`: a scheme requires a
leading ASCII letter, scheme characters up to a `:`, and is lower-cased. -/
def splitScheme (u : List Char) : List Char × List Char :=
  match u with
  | [] => ([], [])
  | c :: rest =>
    if c.isAlpha then
      match schemeScan rest with
      | some p => (lowerStr (c :: p.1), p.2)
      | none => ([], u)
    else ([], u)

/-- Characters that terminate the network-location component. -/
def netlocDelim (c : Char) : Bool := c == '/' || c == '?' || c == '#'

/-- `urllib.parse._splitnetloc` (after the leading `//`): everything up to the
first `/`, `?` or `#`. -/
def splitNetloc (l : List Char) : List Char × List Char :=
  (l.takeWhile (fun c => !netlocDelim c), l.dropWhile (fun c => !netlocDelim c))

/-- Split at the first occurrence of `sep`; the separator is dropped, and an
absent separator leaves the second component empty. -/
def splitOnFirst (sep : Char) (l : List Char) : List Char × List Char :=
  (l.takeWhile (fun c => c != sep), (l.dropWhile (fun c => c != sep)).tail)

/-- The five components returned by `urllib.parse.urlsplit`. -/
structure UrlParts where
  scheme : List Char
  netloc : List Char
  path : List Char
  query : List Char
  fragment : List Char
deriving Repr, DecidableEq

/-- A C0 control character or space, the set CPython's `urlsplit` strips from
the front of a URL (WHATWG basic URL parser behaviour). -/
def c0OrSpace (c : Char) : Bool := c.toNat ≤ 0x20

/-- The unsafe bytes CPython's `urlsplit` removes everywhere: tab, CR, LF. -/
def unsafeUrlByte (c : Char) : Bool := c == '\t' || c == '\r' || c == '\n'

/-- `urlsplit` preprocessing: `url.lstrip(_WHATWG_C0_CONTROL_OR_SPACE)`
followed by removal of every tab, CR and LF. -/
def preprocessUrl (u : List Char) : List Char :=
  (u.dropWhile c0OrSpace).filter (fun c => !unsafeUrlByte c)

/-- `urllib.parse.urlsplit` (CPython 3.11): strip/clean, scheme, then
`//netloc` if present, then fragment after the first `#`, then query after the
first `?`.  The IPv6-bracket and non-ASCII-netloc `ValueError` paths are not
modelled (no claim exercises them). -/
def urlsplit (u0 : List Char) : UrlParts :=
  let u := preprocessUrl u0
  let sp := splitScheme u
  let nl := if sp.2.take 2 = ['/', '/'] then splitNetloc (sp.2.drop 2) else ([], sp.2)
  let fr := splitOnFirst '#' nl.2
  let pq := splitOnFirst '?' fr.1
  ⟨sp.1, nl.1, pq.1, pq.2, fr.2⟩

/-- `urllib.parse.uses_netloc` (CPython 3.11): the schemes for which
`urlunsplit` reintroduces a `//` marker. -/
def usesNetloc : List (List Char) :=
  [[], "ftp".data, "http".data, "gopher".data, "nntp".data, "telnet".data,
    "imap".data, "wais".data, "file".data, "mms".data, "https".data,
    "shttp".data, "snews".data, "prospero".data, "rtsp".data, "rtsps".data,
    "rtspu".data, "rsync".data, "svn".data, "svn+ssh".data, "sftp".data,
    "nfs".data, "git".data, "git+ssh".data, "ws".data, "wss".data]

/-- `urllib.parse.urlunsplit` (CPython 3.11): the `//` marker is emitted when
the netloc is nonempty, or when the scheme is a known netloc scheme and the
path does not already begin with `//`. -/
def urlunsplit (p : UrlParts) : List Char :=
  let u1 :=
    if p.netloc ≠ [] ∨
        (p.scheme ≠ [] ∧ usesNetloc.contains p.scheme ∧ p.path.take 2 ≠ ['/', '/']) then
      '/' :: '/' ::
        (p.netloc ++ (if p.path ≠ [] ∧ p.path.take 1 ≠ ['/'] then '/' :: p.path else p.path))
    else p.path
  let u2 := if p.scheme ≠ [] then p.scheme ++ ':' :: u1 else u1
  let u3 := if p.query ≠ [] then u2 ++ '?' :: p.query else u2
  if p.fragment ≠ [] then u3 ++ '#' :: p.fragment else u3

/-- The tracking-parameter predicate of `_clean_url` (main.py line 53):
`k.lower().startswith("utm_") or k.lower() in {"fbclid", "gclid"}`. -/
def isTrackingKey (k : List Char) : Bool :=
  "utm_".data.isPrefixOf (lowerStr k) || lowerStr k == "fbclid".data
    || lowerStr k == "gclid".data

/-- `_clean_url` (main.py line 45): split the URL, drop tracking query
parameters, re-encode the remaining query, reassemble. -/
def clean_url (u : String) : String :=
  if u = "" then ""
  else
    let parts := urlsplit u.data
    let q := (parse_qsl parts.query).filter fun kv => !isTrackingKey kv.1
    ⟨urlunsplit ⟨parts.scheme, parts.netloc, parts.path, urlencode q, parts.fragment⟩⟩

/-- The dedup loop of `choose_images` (main.py lines 72-78): first occurrence
of each nonempty canonical key is kept, with its original URL text; the state
carries the seen canonical keys and the kept originals in order. -/
def uniqStep (st : List String × List String) (u : String) :
    List String × List String :=
  let cu := clean_url u
  if cu ≠ "" ∧ ¬ st.1.contains cu then (cu :: st.1, st.2 ++ [u]) else st

/-- The `uniq` list produced by the dedup loop. -/
def uniqUrls (all_urls : List String) : List String :=
  (all_urls.foldl uniqStep (([] : List String), ([] : List String))).2

/-- The `all_urls` candidate list of `choose_images` (main.py lines 62-70),
modelled after XML extraction: the stripped primary text followed by the
stripped, nonempty additional texts. -/
def candidateList (primaryText : String) (additionalTexts : List String) : List String :=
  (⟨pyStrip primaryText.data⟩ : String) ::
    ((additionalTexts.map fun t => (⟨pyStrip t.data⟩ : String)).filter fun t => t ≠ "")

/-- `choose_images` (main.py line 59): after canonical dedup of the candidate
list the first three survivors are returned, with fallback of missing slots to
the previous one. -/
def choose_images (primaryText : String) (additionalTexts : List String) :
    String × String × String :=
  let primary_raw : String := ⟨pyStrip primaryText.data⟩
  let uniq := uniqUrls (candidateList primaryText additionalTexts)
  let primary := uniq.headD primary_raw
  let s1 := uniq.getD 1 ""
  let s2 := uniq.getD 2 ""
  let s1 := if s1 = "" then primary else s1
  let s2 := if s2 = "" then s1 else s2
  (primary, s1, s2)

/-- The standard base64 alphabet. -/
def b64Alphabet : List Char :=
  "ABCDEFGHIJKLMNOPQRSTUVWXYZabcdefghijklmnopqrstuvwxyz0123456789+/".data

/-- Base64 digit character for a 6-bit value. -/
def b64Char (n : Nat) : Char := b64Alphabet.getD n 'A'

/-- Index of a base64 digit character, if it is one. -/
def b64DigitVal (c : Char) : Option Nat :=
  let i := b64Alphabet.indexOf c
  if i < b64Alphabet.length then some i else none

/-- `base64.b64encode`: three bytes become four digits; a short final group is
padded with `=`. -/
def b64encode : List Nat → List Char
  | [] => []
  | [b0] => [b64Char (b0 / 4), b64Char (b0 % 4 * 16), '=', '=']
  | [b0, b1] => [b64Char (b0 / 4), b64Char (b0 % 4 * 16 + b1 / 16), b64Char (b1 % 16 * 4), '=']
  | b0 :: b1 :: b2 :: rest =>
    b64Char (b0 / 4) :: b64Char (b0 % 4 * 16 + b1 / 16) ::
      b64Char (b1 % 16 * 4 + b2 / 64) :: b64Char (b2 % 64) :: b64encode rest

/-- Decode groups of four base64 digits, honouring `=` padding. -/
def b64decodeAux : List Char → List Nat
  | c0 :: c1 :: '=' :: '=' :: _ =>
    let v0 := (b64DigitVal c0).getD 0
    let v1 := (b64DigitVal c1).getD 0
    [v0 * 4 + v1 / 16]
  | c0 :: c1 :: c2 :: '=' :: _ =>
    let v0 := (b64DigitVal c0).getD 0
    let v1 := (b64DigitVal c1).getD 0
    let v2 := (b64DigitVal c2).getD 0
    [v0 * 4 + v1 / 16, v1 % 16 * 16 + v2 / 4]
  | c0 :: c1 :: c2 :: c3 :: rest =>
    let v0 := (b64DigitVal c0).getD 0
    let v1 := (b64DigitVal c1).getD 0
    let v2 := (b64DigitVal c2).getD 0
    let v3 := (b64DigitVal c3).getD 0
    (v0 * 4 + v1 / 16) :: (v1 % 16 * 16 + v2 / 4) :: (v2 % 4 * 64 + v3) :: b64decodeAux rest
  | _ => []

/-- `base64.b64decode` (non-alphabet characters are discarded first). -/
def b64decode (l : List Char) : List Nat :=
  b64decodeAux (l.filter fun c => (b64DigitVal c).isSome || c == '=')

/-- The base64 text of `_TRANSPARENT_PNG` (main.py line 226). -/
def transparentPngB64 : String :=
  "iVBORw0KGgoAAAANSUhEUgAAAAEAAAABCAQAAAC1HAwCAAAAC0lEQVR4nGMAAQAABQABDQottAAAAABJRU5ErkJggg=="

/-- `_TRANSPARENT_PNG`: the fixed 1×1 transparent PNG fallback bytes. -/
def TRANSPARENT_PNG : List Nat := b64decode transparentPngB64.data

/-- The data URI the resolver falls back to:
`"data:image/png;base64," + b64encode(_TRANSPARENT_PNG)`. -/
def fallbackDataUri : String :=
  "data:image/png;base64," ++ ⟨b64encode TRANSPARENT_PNG⟩

/-- Substring test (`needle in hay` on Python strings). -/
def listContainsSub (needle : List Char) : List Char → Bool
  | [] => needle.isEmpty
  | c :: r => needle.isPrefixOf (c :: r) || listContainsSub needle r

/-- `_guess_mime` (main.py line 231). -/
def guess_mime (url : String) (contentType : Option String) : String :=
  let fromUrl :=
    let u := lowerStr url.data
    if listContainsSub ".png".data u then "image/png"
    else if listContainsSub ".webp".data u then "image/webp"
    else if listContainsSub ".svg".data u then "image/svg+xml"
    else "image/jpeg"
  match contentType with
  | some ct =>
    if ct ≠ "" ∧ listContainsSub "image/".data ct.data then
      ⟨pyStrip (ct.data.takeWhile fun c => c != ';')⟩
    else fromUrl
  | none => fromUrl

/-- An HTTP response as observed by `to_data_uri`: status code, the
`content-type` header (if present) and the body bytes. -/
structure HttpResp where
  status : Nat
  contentType : Option String
  content : List Nat

/-- Outcome of one outbound fetch attempt: an exception, or a response. -/
inductive FetchResult where
  | exn : FetchResult
  | resp : HttpResp → FetchResult

/-- `to_data_uri` (main.py line 248), with the network modelled as an oracle
from attempt number to outcome.  The returned `Nat` counts the fetch attempts
performed.  `raise_for_status` (which throws on any non-2xx status) and the
body of the `try` share the single `except` fallback. -/
def to_data_uri (url : String) (fetch : Nat → FetchResult) : String × Nat :=
  if url = "" then (fallbackDataUri, 0)
  else if "data:".data.isPrefixOf url.data then (url, 0)
  else
    match fetch 0 with
    | .exn => (fallbackDataUri, 1)
    | .resp r =>
      if ¬ (200 ≤ r.status ∧ r.status < 300) then (fallbackDataUri, 1)
      else
        let ct := lowerStr (r.contentType.getD "").data
        if ¬ listContainsSub "image/".data ct then (fallbackDataUri, 1)
        else if 6000000 < r.content.length then (fallbackDataUri, 1)
        else ("data:" ++ guess_mime url r.contentType ++ ";base64," ++ ⟨b64encode r.content⟩, 1)

/-- The fatal-error substring patterns of `_is_fatal_playwright_error`
(main.py line 292). -/
def fatalPatterns : List String :=
  ["targetclosederror", "target page", "has been closed",
    "writeunixtransport closed", "handler is closed",
    "playwright connection closed"]

/-- `_is_fatal_playwright_error`: lower-case the message, check the fixed
substring patterns. -/
def is_fatal_playwright_error (msg : String) : Bool :=
  fatalPatterns.any fun p => listContainsSub p.data (lowerStr msg.data)

/-- Outcome of one full render attempt (`_do()` in `render_png`): PNG bytes,
or an exception carrying its stringified message. -/
inductive AttemptResult where
  | ok : List Nat → AttemptResult
  | err : String → AttemptResult

/-- Observable behaviour of one `render_png` call: the returned bytes or the
propagated exception message, the number of `_do()` attempts made, and the
number of `_restart_playwright()` invocations. -/
structure RenderTrace where
  result : Except String (List Nat)
  attempts : Nat
  restarts : Nat

/-- `render_png` (main.py lines 415-422), with `_do()` modelled as an oracle
from attempt number to outcome: try once; on a fatal error, restart and retry
exactly once, propagating whatever the retry does; on an ordinary error,
propagate immediately. -/
def render_png (attempt : Nat → AttemptResult) : RenderTrace :=
  match attempt 0 with
  | .ok png => ⟨.ok png, 1, 0⟩
  | .err e =>
    if is_fatal_playwright_error e then
      match attempt 1 with
      | .ok png => ⟨.ok png, 2, 1⟩
      | .err e2 => ⟨.error e2, 2, 1⟩
    else ⟨.error e, 1, 0⟩

/-- Truncation to 32 bits. -/
def m32 (x : Nat) : Nat := x % 4294967296

/-- 32-bit left rotation (callers maintain `x < 2^32`). -/
def rotl32 (x s : Nat) : Nat := m32 (x * 2 ^ s + x / 2 ^ (32 - s))

/-- MD5 per-round shift amounts. -/
def md5S : List Nat :=
  [7, 12, 17, 22, 7, 12, 17, 22, 7, 12, 17, 22, 7, 12, 17, 22,
    5, 9, 14, 20, 5, 9, 14, 20, 5, 9, 14, 20, 5, 9, 14, 20,
    4, 11, 16, 23, 4, 11, 16, 23, 4, 11, 16, 23, 4, 11, 16, 23,
    6, 10, 15, 21, 6, 10, 15, 21, 6, 10, 15, 21, 6, 10, 15, 21]

/-- MD5 round constants `K[i] = floor(abs(sin(i + 1)) * 2^32)`. -/
def md5K : List Nat :=
  [0xd76aa478, 0xe8c7b756, 0x242070db, 0xc1bdceee,
    0xf57c0faf, 0x4787c62a, 0xa8304613, 0xfd469501,
    0x698098d8, 0x8b44f7af, 0xffff5bb1, 0x895cd7be,
    0x6b901122, 0xfd987193, 0xa679438e, 0x49b40821,
    0xf61e2562, 0xc040b340, 0x265e5a51, 0xe9b6c7aa,
    0xd62f105d, 0x02441453, 0xd8a1e681, 0xe7d3fbc8,
    0x21e1cde6, 0xc33707d6, 0xf4d50d87, 0x455a14ed,
    0xa9e3e905, 0xfcefa3f8, 0x676f02d9, 0x8d2a4c8a,
    0xfffa3942, 0x8771f681, 0x6d9d6122, 0xfde5380c,
    0xa4beea44, 0x4bdecfa9, 0xf6bb4b60, 0xbebfbc70,
    0x289b7ec6, 0xeaa127fa, 0xd4ef3085, 0x04881d05,
    0xd9d4d039, 0xe6db99e5, 0x1fa27cf8, 0xc4ac5665,
    0xf4292244, 0x432aff97, 0xab9423a7, 0xfc93a039,
    0x655b59c3, 0x8f0ccc92, 0xffeff47d, 0x85845dd1,
    0x6fa87e4f, 0xfe2ce6e0, 0xa3014314, 0x4e0811a1,
    0xf7537e82, 0xbd3af235, 0x2ad7d2bb, 0xeb86d391]

/-- MD5 nonlinear function of round `i` (bitwise NOT over 32 bits is XOR with
the all-ones mask). -/
def md5FF (i b c d : Nat) : Nat :=
  if i < 16 then (b &&& c) ||| ((b ^^^ 0xffffffff) &&& d)
  else if i < 32 then (d &&& b) ||| ((d ^^^ 0xffffffff) &&& c)
  else if i < 48 then b ^^^ c ^^^ d
  else c ^^^ (b ||| (d ^^^ 0xffffffff))

/-- MD5 message-word index of round `i`. -/
def md5G (i : Nat) : Nat :=
  if i < 16 then i
  else if i < 32 then (5 * i + 1) % 16
  else if i < 48 then (3 * i + 5) % 16
  else (7 * i) % 16

/-- Little-endian 32-bit word `j` of a 64-byte block. -/
def blockWord (blk : List Nat) (j : Nat) : Nat :=
  blk.getD (4 * j) 0 + 256 * blk.getD (4 * j + 1) 0 + 65536 * blk.getD (4 * j + 2) 0
    + 16777216 * blk.getD (4 * j + 3) 0

/-- One MD5 round: rotate the state quadruple. -/
def md5Step (blk : List Nat) (st : Nat × Nat × Nat × Nat) (i : Nat) : Nat × Nat × Nat × Nat :=
  let f := m32 (md5FF i st.2.1 st.2.2.1 st.2.2.2 + st.1 + md5K.getD i 0
    + blockWord blk (md5G i))
  (st.2.2.2, m32 (st.2.1 + rotl32 f (md5S.getD i 0)), st.2.1, st.2.2.1)

/-- Process one 64-byte block: 64 rounds, then add into the running state. -/
def md5Block (st : Nat × Nat × Nat × Nat) (blk : List Nat) : Nat × Nat × Nat × Nat :=
  let r := (List.range 64).foldl (md5Step blk) st
  (m32 (st.1 + r.1), m32 (st.2.1 + r.2.1), m32 (st.2.2.1 + r.2.2.1), m32 (st.2.2.2 + r.2.2.2))

/-- Little-endian bytes of a 64-bit value (truncating). -/
def le64 (n : Nat) : List Nat :=
  [n % 256, n / 256 % 256, n / 65536 % 256, n / 16777216 % 256,
    n / 4294967296 % 256, n / 1099511627776 % 256,
    n / 281474976710656 % 256, n / 72057594037927936 % 256]

/-- Little-endian bytes of a 32-bit value. -/
def le32 (n : Nat) : List Nat := [n % 256, n / 256 % 256, n / 65536 % 256, n / 16777216 % 256]

/-- MD5 padding: `0x80`, zeros to 56 mod 64, then the bit length in 64 bits
little-endian. -/
def md5Pad (msg : List Nat) : List Nat :=
  msg ++ 0x80 :: List.replicate ((120 - (msg.length + 1) % 64) % 64) 0 ++ le64 (8 * msg.length)

/-- Split into 64-byte blocks (fuel-driven; fuel `l.length` suffices). -/
def chunks64 : Nat → List Nat → List (List Nat)
  | 0, _ => []
  | _, [] => []
  | fuel + 1, l => l.take 64 :: chunks64 fuel (l.drop 64)

/-- The 16-byte MD5 digest of a byte string (`hashlib.md5(raw).digest()`). -/
def md5Bytes (msg : List Nat) : List Nat :=
  let padded := md5Pad msg
  let st := (chunks64 padded.length padded).foldl md5Block
    (0x67452301, 0xefcdab89, 0x98badcfe, 0x10325476)
  le32 st.1 ++ le32 st.2.1 ++ le32 st.2.2.1 ++ le32 st.2.2.2

/-- Lower-case hexadecimal digit of `n % 16`, as `hexdigest` emits. -/
def hexLowerDigit (n : Nat) : Char := "0123456789abcdef".data.getD (n % 16) '0'

/-- `hashlib.md5(msg).hexdigest()` as a character list. -/
def md5HexChars (msg : List Nat) : List Char :=
  (md5Bytes msg).flatMap fun b => [hexLowerDigit (b / 16), hexLowerDigit b]

/-- `build_sig` (main.py line 100): join the parts with `"|"`, UTF-8 encode,
MD5, first 12 hex digits.  The `p or ""` coalescing is vacuous here since the
model's parts are strings, not optional strings. -/
def build_sig (parts : List String) : String :=
  ⟨(md5HexChars (utf8EncodeStr (String.intercalate "|" parts).data)).take 12⟩

/-- `cap_word` inside `tr_title_case` (main.py line 115): Turkish-aware first
letter upper-casing, rest lower-cased with `I`/`İ` remapped to dotless/dotted
lower-case (CPython fully lower-cases `İ` to `i` plus a combining dot; the
model maps it straight to `i`, which only differs on inputs containing `İ`
mid-word, a case no claim exercises). -/
def capWord (w : List Char) : List Char :=
  match w with
  | [] => []
  | first :: rest =>
    let firstUp := if first = 'i' then 'İ' else if first = 'ı' then 'I' else upperChar first
    let restLow := (rest.map lowerChar).map fun c =>
      if c == 'I' then 'ı' else if c == 'İ' then 'i' else c
    firstUp :: restLow

/-- Maximal homogeneous runs of whitespace / non-whitespace characters,
modelling `re.split(r"(\s+)", text)` with its separator groups kept. -/
def runsAux (cur : Bool) (acc : List Char) : List Char → List (List Char)
  | [] => [acc.reverse]
  | c :: r =>
    if isPyWs c == cur then runsAux cur (c :: acc) r
    else acc.reverse :: runsAux (isPyWs c) [c] r

/-- Split a character list into alternating runs. -/
def splitRuns (l : List Char) : List (List Char) :=
  match l with
  | [] => []
  | c :: r => runsAux (isPyWs c) [c] r

/-- `tr_title_case` (main.py line 109): strip, then capitalize each
whitespace-delimited word, preserving the whitespace runs verbatim. -/
def tr_title_case (text : String) : String :=
  let t := pyStrip text.data
  if t = [] then ""
  else ⟨(splitRuns t).flatMap fun p => if p.all isPyWs then p else capWord p⟩

/-- The HTTP response produced by the `/render.png` endpoint. -/
structure HttpResponse where
  status : Nat
  mediaType : String
  headers : List (String × String)
  body : List Nat

/-- The query parameters of `/render.png` (main.py lines 430-439), with their
FastAPI defaults applied. -/
structure RenderParams where
  title : String
  price : String
  sale_price : String
  product_image_primary : String
  product_image_secondary_1 : String
  product_image_secondary_2 : String
  logo_url : String
  theme : String

/-- The HTML built by `render_endpoint` before rendering (main.py lines
441-490): normalization, visibility flags, discount computation, template and
CSS selection by theme, logo defaulting, concurrent image resolution, and the
placeholder substitution chain.  Template and CSS file contents and the base
URL are parameters (file loading is an external collaborator), and each image
resolution receives its own fetch oracle. -/
def render_html (prm : RenderParams)
    (tplClassic cssClassic tplSeason cssSeason baseUrl : String)
    (fetchP fetchS1 fetchS2 fetchL : Nat → FetchResult) : String :=
  let price := format_currency_tr prm.price
  let sale_price := format_currency_tr prm.sale_price
  let title := tr_title_case prm.title
  let flags := hidden_flags price sale_price
  let pct := calc_discount_percent price sale_price
  let discount_hidden := match pct with | none => "hidden" | some _ => ""
  let discount_text := match pct with | none => "" | some n => "%" ++ toString n ++ " İNDİRİM"
  let tpl := if prm.theme = "season" then tplSeason else tplClassic
  let css := if prm.theme = "season" then cssSeason else cssClassic
  let logo_url :=
    if prm.logo_url = "" then baseUrl ++ "/static/vatkalilogo.svg" else prm.logo_url
  let img_p := (to_data_uri prm.product_image_primary fetchP).1
  let img_s1 := (to_data_uri prm.product_image_secondary_1 fetchS1).1
  let img_s2 := (to_data_uri prm.product_image_secondary_2 fetchS2).1
  let img_logo := (to_data_uri logo_url fetchL).1
  let html := pyReplace tpl "\x7b\x7bCSS\x7d\x7d" css
  let html := pyReplace html "\x7b\x7bproduct_image_primary\x7d\x7d" img_p
  let html := pyReplace html "\x7b\x7bproduct_image_secondary_1\x7d\x7d" img_s1
  let html := pyReplace html "\x7b\x7bproduct_image_secondary_2\x7d\x7d" img_s2
  let html := pyReplace html "\x7b\x7blogo_url\x7d\x7d" img_logo
  let html := pyReplace html "\x7b\x7btitle\x7d\x7d" title
  let html := pyReplace html "\x7b\x7bprice\x7d\x7d" price
  let html := pyReplace html "\x7b\x7bsale_price\x7d\x7d" sale_price
  let html := pyReplace html "\x7b\x7bold_hidden\x7d\x7d" flags.1
  let html := pyReplace html "\x7b\x7bnew_hidden\x7d\x7d" flags.2.1
  let html := pyReplace html "\x7b\x7bsingle_hidden\x7d\x7d" flags.2.2
  let html := pyReplace html "\x7b\x7bdiscount_text\x7d\x7d" discount_text
  pyReplace html "\x7b\x7bdiscount_hidden\x7d\x7d" discount_hidden

/-- The `Cache-Control` header value attached to every `/render.png`
response (main.py line 498). -/
def noStoreHeader : String := "no-store, no-cache, must-revalidate, max-age=0"

/-- `render_endpoint` (main.py lines 429-499): build the HTML, try
`render_png(html, 1080, 1080)` through the render oracle, substitute the
transparent PNG on any exception, and always answer 200 `image/png` with the
no-store header. -/
def render_endpoint (prm : RenderParams)
    (tplClassic cssClassic tplSeason cssSeason baseUrl : String)
    (fetchP fetchS1 fetchS2 fetchL : Nat → FetchResult)
    (render : String → Nat → Nat → Except String (List Nat)) : HttpResponse :=
  let html := render_html prm tplClassic cssClassic tplSeason cssSeason baseUrl
    fetchP fetchS1 fetchS2 fetchL
  let png := match render html 1080 1080 with
    | .ok b => b
    | .error _ => TRANSPARENT_PNG
  ⟨200, "image/png", [("Cache-Control", noStoreHeader)], png⟩

/-- A fetch oracle whose first attempt raises and whose second attempt would
return a small valid image response — used to exhibit the resolver's actual
single-attempt behaviour. -/
def fetchFailThenImage : Nat → FetchResult := fun n =>
  if n = 0 then .exn else .resp ⟨200, some "image/png", [137]⟩

/-- A render-attempt oracle whose first attempt dies with a fatal driver error
and whose second attempt succeeds. -/
def fatalThenOkAttempt : Nat → AttemptResult := fun n =>
  if n = 0 then .err "handler is closed" else .ok [7]

/-- The probe tuple for signature injectivity: the title field varies, the
other seven signature fields are held fixed. -/
def sigProbeParts (t : String) : List String :=
  [t, "p", "s", "i1", "i2", "i3", "v", "classic"]

/-- The joined, UTF-8 encoded signature input for a probe title. -/
def sigMsg (t : String) : List Nat :=
  utf8EncodeStr (String.intercalate "|" (sigProbeParts t)).data

/-- The 32 hex nibbles (as numbers) of the signature digest for a probe title. -/
def sigNibs (t : String) : List Nat :=
  (md5Bytes (sigMsg t)).flatMap fun b => [b / 16, b]

/-- A string of `m` repeated `a`s (an injection of `ℕ` into titles). -/
def aStr (m : Nat) : String := ⟨List.replicate m 'a'⟩

/-- The first twelve signature nibbles (mod 16) for probe title `aStr m`,
packaged into the finite type `Fin 12 → Fin 16`; the signature characters are
a function of this value. -/
def sigFinProbe (m : Nat) : Fin 12 → Fin 16 := fun i =>
  ⟨(sigNibs (aStr m)).getD i.val 0 % 16, Nat.mod_lt _ (by norm_num)⟩

/-- The condition under which `_clean_url` is a faithful canonicalizer: the
URL parses with a nonempty netloc, or else its path does not begin with `//`
and, when its scheme is one of the netloc schemes, its path is empty or
absolute.  Outside this set CPython's `urlsplit`/`urlunsplit` pair is not a
retraction (for example `urlunsplit` of `("", "", "//", "", "")` is `"//"`,
which re-splits as a pure netloc marker). -/
def WellFormedUrl (u : String) : Prop :=
  (urlsplit u.data).netloc ≠ [] ∨
    ((urlsplit u.data).path.take 2 ≠ ['/', '/'] ∧
      ((urlsplit u.data).scheme ≠ [] → usesNetloc.contains (urlsplit u.data).scheme →
        ((urlsplit u.data).path = [] ∨ (urlsplit u.data).path.take 1 = ['/'])))

/-! ## Theorems -/

/-- Both branches of `hidden_flags`, with the normalization spelled out. -/
theorem hidden_flags_eq (price sale : String) :
    hidden_flags price sale =
      if norm_price sale = "" ∨ norm_price sale = norm_price price then
        ("hidden", "hidden", "") else ("", "", "hidden") := rfl

/-- C8: for every pair of price strings exactly one template branch is
visible: when the normalized sale is empty or equals the normalized price the
old/new markers are `"hidden"` and the single-price marker is not, otherwise
only the single-price marker is `"hidden"`; the single-price region is hidden
precisely when the dual-price region is shown. -/
theorem hidden_flags_exclusive (price sale : String) :
    (hidden_flags price sale =
      if norm_price sale = "" ∨ norm_price sale = norm_price price then
        ("hidden", "hidden", "") else ("", "", "hidden"))
    ∧ ((hidden_flags price sale).2.2 = "hidden" ↔ ¬ (hidden_flags price sale).1 = "hidden")
    ∧ ((hidden_flags price sale).1 = "hidden" ∧ (hidden_flags price sale).2.1 = "hidden"
        ↔ ¬ (hidden_flags price sale).2.2 = "hidden") := by
  refine ⟨hidden_flags_eq price sale, ?_, ?_⟩
  all_goals
    have he := hidden_flags_eq price sale
    by_cases h : norm_price sale = "" ∨ norm_price sale = norm_price price
    · rw [if_pos h] at he; rw [he]; decide
    · rw [if_neg h] at he; rw [he]; decide

/-- Unfolding step of the substring test. -/
theorem listContainsSub_cons (n : List Char) (c : Char) (r : List Char) :
    listContainsSub n (c :: r) = (n.isPrefixOf (c :: r) || listContainsSub n r) := rfl

/-- `replaceAux` is the identity when the pattern does not occur. -/
theorem replaceAux_no_occ (pat rep : List Char) :
    ∀ fuel l, listContainsSub pat l = false → replaceAux pat rep fuel l = l := by
  intro fuel
  induction fuel with
  | zero => intro l _; cases l <;> rfl
  | succ n ih =>
    intro l h
    cases l with
    | nil => rfl
    | cons c r =>
      have h' : pat.isPrefixOf (c :: r) = false ∧ listContainsSub pat r = false := by
        simpa [listContainsSub_cons] using h
      rw [replaceAux, if_neg (by simp [h'.1]), ih r h'.2]

/-- `pyReplace` is the identity when the pattern does not occur. -/
theorem pyReplace_no_occ (s pat rep : String)
    (h : listContainsSub pat.data s.data = false) : pyReplace s pat rep = s := by
  unfold pyReplace
  rw [replaceAux_no_occ pat.data rep.data s.data.length s.data h]

/-- `format_currency_tr` spelled out as the two exact-case replacements. -/
theorem format_currency_tr_eq (s : String) :
    format_currency_tr s =
      if norm_price s = "" then ""
      else pyReplace (pyReplace (norm_price s) "TRY" "TL") "try" "TL" := by
  simp only [format_currency_tr]
  by_cases h : norm_price s = ""
  · simp [h]
  · simp [h]

/-- C7 (amended): after whitespace normalization, `formatCurrencyLabel`
replaces the exact-case tokens `"TRY"` and `"try"` with `"TL"`; strings
containing neither token are returned unchanged; mixed-case variants such as
`"Try"` are not replaced. -/
theorem format_currency_exact_case (s : String) :
    (format_currency_tr s =
      if norm_price s = "" then ""
      else pyReplace (pyReplace (norm_price s) "TRY" "TL") "try" "TL")
    ∧ (listContainsSub "TRY".data (norm_price s).data = false →
        listContainsSub "try".data (norm_price s).data = false →
        format_currency_tr s = norm_price s)
    ∧ format_currency_tr "100 TRY" = "100 TL"
    ∧ format_currency_tr "100 try" = "100 TL"
    ∧ format_currency_tr "TRY 5 TRY try" = "TL 5 TL TL" := by
  refine ⟨format_currency_tr_eq s, ?_, by decide, by decide, by decide⟩
  intro h1 h2
  rw [format_currency_tr_eq s]
  by_cases h : norm_price s = ""
  · simp [h]
  · rw [if_neg h, pyReplace_no_occ _ _ _ h1, pyReplace_no_occ _ _ _ h2]

/-- C7 counterexample: the mixed-case token `"Try"` is not replaced, although
the claim requires every case variant of `TRY` to become `TL`. -/
theorem format_currency_mixed_case_cex :
    format_currency_tr "100 Try" = "100 Try" ∧ ("100 Try" : String) ≠ "100 TL" := by
  decide

/-- Banker's rounding of a nonnegative rational is nonnegative. -/
theorem pyRound_nonneg (q : ℚ) (h : 0 ≤ q) : 0 ≤ pyRound q := by
  have hf : (0 : ℤ) ≤ ⌊q⌋ := Int.floor_nonneg.mpr h
  simp only [pyRound]
  split_ifs <;> omega

/-- Rounding a nonnegative rational to a double is nonnegative. -/
theorem roundDouble_nonneg (q : ℚ) (h : 0 ≤ q) : 0 ≤ roundDouble q := by
  simp only [roundDouble]
  split_ifs with h0 hle
  · exact le_refl 0
  · apply div_nonneg
    · exact_mod_cast pyRound_nonneg _ (mul_nonneg h (by positivity))
    · positivity
  · apply mul_nonneg
    · exact_mod_cast pyRound_nonneg _ (div_nonneg h (by positivity))
    · positivity

/-- `pyRound` on a value in `[f, f + 1/2)` gives `f`. -/
theorem pyRound_eq_low (q : ℚ) (f : ℤ) (h1 : (f : ℚ) ≤ q) (h2 : q < (f : ℚ) + 1/2) :
    pyRound q = f := by
  have hf : ⌊q⌋ = f := by
    rw [Int.floor_eq_iff]
    exact ⟨h1, by linarith⟩
  simp only [pyRound, hf]
  rw [if_pos (by linarith)]

/-- `pyRound` on a value in `(f + 1/2, f + 1)` gives `f + 1`. -/
theorem pyRound_eq_high (q : ℚ) (f : ℤ) (h1 : (f : ℚ) + 1/2 < q) (h2 : q < (f : ℚ) + 1) :
    pyRound q = f + 1 := by
  have hf : ⌊q⌋ = f := by
    rw [Int.floor_eq_iff]
    exact ⟨by linarith, by linarith⟩
  simp only [pyRound, hf]
  rw [if_neg (by linarith), if_pos (by linarith)]

/-- `pyRound` on an exact half with even integer part gives that part. -/
theorem pyRound_eq_tie (q : ℚ) (f : ℤ) (h1 : q = (f : ℚ) + 1/2) (h2 : f % 2 = 0) :
    pyRound q = f := by
  have hf : ⌊q⌋ = f := by
    rw [Int.floor_eq_iff]
    exact ⟨by rw [h1]; linarith, by rw [h1]; linarith⟩
  simp only [pyRound, hf]
  rw [if_neg (by rw [h1]; simp), if_neg (by rw [h1]; simp), if_pos h2]

/-- Evaluate `qpow2` at a nonnegative exponent. -/
theorem qpow2_eval (e : ℤ) (k : ℕ) (h : e.toNat = k) (h2 : 0 ≤ e) :
    qpow2 e = (2 ^ k : ℚ) := by
  simp only [qpow2]
  rw [if_pos h2, h]
  push_cast
  rfl

/-- Evaluate `qpow2` at a negative exponent. -/
theorem qpow2_eval_neg (e : ℤ) (k : ℕ) (h : (-e).toNat = k) (h2 : e < 0) :
    qpow2 e = 1 / (2 ^ k : ℚ) := by
  simp only [qpow2]
  rw [if_neg (by omega), h]
  push_cast
  rfl

/-- Evaluate the binade exponent from the bit lengths of numerator and
denominator and one power-of-two comparison. -/
theorem qexpZ_eval (m : ℚ) (nn dd l1 l2 : ℕ) (e : ℤ)
    (hm : m.num = (nn : ℤ)) (hd : m.den = dd)
    (h1 : natLog2 nn nn = l1) (h2 : natLog2 dd dd = l2)
    (hcase : (m < qpow2 ((l1 : ℤ) - l2) ∧ e = (l1 : ℤ) - l2 - 1) ∨
      (¬m < qpow2 ((l1 : ℤ) - l2) ∧ e = (l1 : ℤ) - l2)) :
    qexpZ m = e := by
  simp only [qexpZ, hm, hd, Int.toNat_natCast, h1, h2]
  rcases hcase with ⟨hlt, he⟩ | ⟨hge, he⟩
  · rw [if_pos hlt, he]
  · rw [if_neg hge, he]

/-- Evaluate `roundDouble` on a positive rational whose binade exponent,
scaled rounding and final value are supplied. -/
theorem roundDouble_eval (q : ℚ) (e z : ℤ) (k : ℕ) (r : ℚ)
    (hq : 0 < q) (he : qexpZ q = e) (hle : e ≤ 52) (hk : (52 - e).toNat = k)
    (hz : pyRound (q * 2 ^ k) = z) (hr : (z : ℚ) / 2 ^ k = r) :
    roundDouble q = r := by
  simp only [roundDouble]
  rw [if_neg (ne_of_gt hq), abs_of_pos hq, he, if_pos hle, hk, hz, hr]

/-- Rounding an integral rational is the identity. -/
theorem pyRound_intCast (n : ℤ) : pyRound (n : ℚ) = n := by
  simp only [pyRound]
  rw [Int.floor_intCast]
  norm_num
/-- The double nearest to 1000 is 1000 itself. -/
theorem roundDouble_1000 : roundDouble (1000 : ℚ) = 1000 :=
  roundDouble_eval _ 9 8796093022208000 43 _ (by norm_num)
    (qexpZ_eval _ 1000 1 9 0 9 (by norm_num) (by norm_num)
      (by decide) (by decide)
      (Or.inr ⟨by
        rw [show ((9 : ℕ) : ℤ) - ((0 : ℕ) : ℤ) = 9 by norm_num,
          qpow2_eval 9 9 (by decide) (by decide)]
        norm_num, by norm_num⟩))
    (by norm_num) (by decide)
    (by rw [show (1000 : ℚ) * 2 ^ 43 = ((8796093022208000 : ℤ) : ℚ) by norm_num,
      pyRound_intCast])
    (by norm_num)

/-- The double nearest to 750 is 750 itself. -/
theorem roundDouble_750 : roundDouble (750 : ℚ) = 750 :=
  roundDouble_eval _ 9 6597069766656000 43 _ (by norm_num)
    (qexpZ_eval _ 750 1 9 0 9 (by norm_num) (by norm_num)
      (by decide) (by decide)
      (Or.inr ⟨by
        rw [show ((9 : ℕ) : ℤ) - ((0 : ℕ) : ℤ) = 9 by norm_num,
          qpow2_eval 9 9 (by decide) (by decide)]
        norm_num, by norm_num⟩))
    (by norm_num) (by decide)
    (by rw [show (750 : ℚ) * 2 ^ 43 = ((6597069766656000 : ℤ) : ℚ) by norm_num,
      pyRound_intCast])
    (by norm_num)

/-- The double nearest to 40 is 40 itself. -/
theorem roundDouble_40 : roundDouble (40 : ℚ) = 40 :=
  roundDouble_eval _ 5 5629499534213120 47 _ (by norm_num)
    (qexpZ_eval _ 40 1 5 0 5 (by norm_num) (by norm_num)
      (by decide) (by decide)
      (Or.inr ⟨by
        rw [show ((5 : ℕ) : ℤ) - ((0 : ℕ) : ℤ) = 5 by norm_num,
          qpow2_eval 5 5 (by decide) (by decide)]
        norm_num, by norm_num⟩))
    (by norm_num) (by decide)
    (by rw [show (40 : ℚ) * 2 ^ 47 = ((5629499534213120 : ℤ) : ℚ) by norm_num,
      pyRound_intCast])
    (by norm_num)

/-- The double nearest to 17 is 17 itself. -/
theorem roundDouble_17 : roundDouble (17 : ℚ) = 17 :=
  roundDouble_eval _ 4 4785074604081152 48 _ (by norm_num)
    (qexpZ_eval _ 17 1 4 0 4 (by norm_num) (by norm_num)
      (by decide) (by decide)
      (Or.inr ⟨by
        rw [show ((4 : ℕ) : ℤ) - ((0 : ℕ) : ℤ) = 4 by norm_num,
          qpow2_eval 4 4 (by decide) (by decide)]
        norm_num, by norm_num⟩))
    (by norm_num) (by decide)
    (by rw [show (17 : ℚ) * 2 ^ 48 = ((4785074604081152 : ℤ) : ℚ) by norm_num,
      pyRound_intCast])
    (by norm_num)

/-- The double nearest to 1 is 1 itself. -/
theorem roundDouble_one : roundDouble (1 : ℚ) = 1 :=
  roundDouble_eval _ 0 4503599627370496 52 _ (by norm_num)
    (qexpZ_eval _ 1 1 0 0 0 (by norm_num) (by norm_num)
      (by decide) (by decide)
      (Or.inr ⟨by
        rw [show ((0 : ℕ) : ℤ) - ((0 : ℕ) : ℤ) = 0 by norm_num,
          qpow2_eval 0 0 (by decide) (by decide)]
        norm_num, by norm_num⟩))
    (by norm_num) (by decide)
    (by rw [show (1 : ℚ) * 2 ^ 52 = ((4503599627370496 : ℤ) : ℚ) by norm_num,
      pyRound_intCast])
    (by norm_num)

/-- The double nearest to 100 is 100 itself. -/
theorem roundDouble_100 : roundDouble (100 : ℚ) = 100 :=
  roundDouble_eval _ 6 7036874417766400 46 _ (by norm_num)
    (qexpZ_eval _ 100 1 6 0 6 (by norm_num) (by norm_num)
      (by decide) (by decide)
      (Or.inr ⟨by
        rw [show ((6 : ℕ) : ℤ) - ((0 : ℕ) : ℤ) = 6 by norm_num,
          qpow2_eval 6 6 (by decide) (by decide)]
        norm_num, by norm_num⟩))
    (by norm_num) (by decide)
    (by rw [show (100 : ℚ) * 2 ^ 46 = ((7036874417766400 : ℤ) : ℚ) by norm_num,
      pyRound_intCast])
    (by norm_num)

/-- The double nearest to 25 is 25 itself. -/
theorem roundDouble_25 : roundDouble (25 : ℚ) = 25 :=
  roundDouble_eval _ 4 7036874417766400 48 _ (by norm_num)
    (qexpZ_eval _ 25 1 4 0 4 (by norm_num) (by norm_num)
      (by decide) (by decide)
      (Or.inr ⟨by
        rw [show ((4 : ℕ) : ℤ) - ((0 : ℕ) : ℤ) = 4 by norm_num,
          qpow2_eval 4 4 (by decide) (by decide)]
        norm_num, by norm_num⟩))
    (by norm_num) (by decide)
    (by rw [show (25 : ℚ) * 2 ^ 48 = ((7036874417766400 : ℤ) : ℚ) by norm_num,
      pyRound_intCast])
    (by norm_num)

/-- The quotient 750/1000 = 3/4 is exactly representable. -/
theorem roundDouble_34 : roundDouble ((750 : ℚ) / 1000 : ℚ) = 3 / 4 :=
  roundDouble_eval _ (-1) 6755399441055744 53 _ (by norm_num)
    (qexpZ_eval _ 3 4 1 2 (-1) (by norm_num) (by norm_num)
      (by decide) (by decide)
      (Or.inr ⟨by
        rw [show ((1 : ℕ) : ℤ) - ((2 : ℕ) : ℤ) = (-1) by norm_num,
          qpow2_eval_neg (-1) 1 (by decide) (by decide)]
        norm_num, by norm_num⟩))
    (by norm_num) (by decide)
    (pyRound_eq_low _ 6755399441055744 (by norm_num) (by norm_num))
    (by norm_num)

/-- The difference 1 - 3/4 = 1/4 is exactly representable. -/
theorem roundDouble_14 : roundDouble ((1 : ℚ) / 4 : ℚ) = 1 / 4 :=
  roundDouble_eval _ (-2) 4503599627370496 54 _ (by norm_num)
    (qexpZ_eval _ 1 4 0 2 (-2) (by norm_num) (by norm_num)
      (by decide) (by decide)
      (Or.inr ⟨by
        rw [show ((0 : ℕ) : ℤ) - ((2 : ℕ) : ℤ) = (-2) by norm_num,
          qpow2_eval_neg (-2) 2 (by decide) (by decide)]
        norm_num, by norm_num⟩))
    (by norm_num) (by decide)
    (pyRound_eq_low _ 4503599627370496 (by norm_num) (by norm_num))
    (by norm_num)

/-- The double division 17/40 rounds to the binary value just below 0.425. -/
theorem roundDouble_1740 : roundDouble ((17 : ℚ) / 40 : ℚ) = 7656119366529843 / 18014398509481984 :=
  roundDouble_eval _ (-2) 7656119366529843 54 _ (by norm_num)
    (qexpZ_eval _ 17 40 4 5 (-2) (by norm_num) (by norm_num)
      (by decide) (by decide)
      (Or.inl ⟨by
        rw [show ((4 : ℕ) : ℤ) - ((5 : ℕ) : ℤ) = (-1) by norm_num,
          qpow2_eval_neg (-1) 1 (by decide) (by decide)]
        norm_num, by norm_num⟩))
    (by norm_num) (by decide)
    (pyRound_eq_low _ 7656119366529843 (by norm_num) (by norm_num))
    (by norm_num)

/-- The subtraction 1 - fl(17/40) hits a representability tie and rounds to the even significand: the double printed 0.5749999999999999. -/
theorem roundDouble_mid : roundDouble (10358279142952141 / 18014398509481984 : ℚ) = 2589569785738035 / 4503599627370496 :=
  roundDouble_eval _ (-1) 5179139571476070 53 _ (by norm_num)
    (qexpZ_eval _ 10358279142952141 18014398509481984 53 54 (-1) (by norm_num) (by norm_num)
      (by decide) (by decide)
      (Or.inr ⟨by
        rw [show ((53 : ℕ) : ℤ) - ((54 : ℕ) : ℤ) = (-1) by norm_num,
          qpow2_eval_neg (-1) 1 (by decide) (by decide)]
        norm_num, by norm_num⟩))
    (by norm_num) (by decide)
    (pyRound_eq_tie _ 5179139571476070 (by norm_num) (by decide))
    (by norm_num)

/-- Scaling by 100 rounds to the double printed 57.49999999999999. -/
theorem roundDouble_sc : roundDouble (64739244643450875 / 1125899906842624 : ℚ) = 8092405580431359 / 140737488355328 :=
  roundDouble_eval _ 5 8092405580431359 47 _ (by norm_num)
    (qexpZ_eval _ 64739244643450875 1125899906842624 55 50 5 (by norm_num) (by norm_num)
      (by decide) (by decide)
      (Or.inr ⟨by
        rw [show ((55 : ℕ) : ℤ) - ((50 : ℕ) : ℤ) = 5 by norm_num,
          qpow2_eval 5 5 (by decide) (by decide)]
        norm_num, by norm_num⟩))
    (by norm_num) (by decide)
    (pyRound_eq_low _ 8092405580431359 (by norm_num) (by norm_num))
    (by norm_num)
/-- Zero is its own double. -/
theorem roundDouble_0 : roundDouble (0 : ℚ) = 0 := by
  simp [roundDouble]

/-- A parsed money value is nonnegative (the parser only sees digits). -/
theorem parse_money_nonneg (s : String) (q : ℚ)
    (h : parse_money_to_float s = some q) : 0 ≤ q := by
  simp only [parse_money_to_float] at h
  split at h
  · exact absurd h (by simp)
  · split at h
    · exact absurd h (by simp)
    · rcases hp : pyFloatParse (sepTransform (s.data.filter moneyKeepChar)) with _ | pair
      · rw [hp] at h; exact absurd h (by simp)
      · rw [hp] at h
        simp only [Option.map_some'] at h
        have hq : q = roundDouble (ratOfParts pair.1 pair.2) := (Option.some.inj h).symm
        rw [hq]
        apply roundDouble_nonneg
        unfold ratOfParts
        positivity

/-- Full characterization of `calc_discount_percent`: given that parsed money
values are nonnegative, the falsy-aware guard is equivalent to requiring a
positive price, a nonzero sale strictly below it, and a positive rounded
percentage (computed through the double-precision chain). -/
theorem calc_discount_characterize (price sale : String) :
    calc_discount_percent price sale =
      (match parse_money_to_float price, parse_money_to_float sale with
        | some p, some s =>
          if 0 < p ∧ s ≠ 0 ∧ s < p ∧
              0 < pyRound (roundDouble (roundDouble (1 - roundDouble (s / p)) * 100))
          then some (pyRound (roundDouble (roundDouble (1 - roundDouble (s / p)) * 100)))
          else none
        | _, _ => none) := by
  rcases hp : parse_money_to_float price with _ | p <;>
    rcases hs : parse_money_to_float sale with _ | s <;>
    simp only [calc_discount_percent, hp, hs]
  have h0p := parse_money_nonneg price p hp
  by_cases hC : p = 0 ∨ s = 0 ∨ p ≤ 0 ∨ s ≥ p
  · have hX : ¬ (0 < p ∧ s ≠ 0 ∧ s < p ∧
        0 < pyRound (roundDouble (roundDouble (1 - roundDouble (s / p)) * 100))) := by
      rintro ⟨c1, c2, c3, _⟩
      rcases hC with h | h | h | h
      · exact absurd (h ▸ c1) (lt_irrefl 0)
      · exact c2 h
      · exact absurd c1 (not_lt.mpr h)
      · exact absurd c3 (not_lt.mpr h)
    rw [if_pos hC, if_neg hX]
  · rw [if_neg hC]
    push_neg at hC
    obtain ⟨h1, h2, h3, h4⟩ := hC
    by_cases hpct : pyRound (roundDouble (roundDouble (1 - roundDouble (s / p)) * 100)) ≤ 0
    · have hX : ¬ (0 < p ∧ s ≠ 0 ∧ s < p ∧
          0 < pyRound (roundDouble (roundDouble (1 - roundDouble (s / p)) * 100))) := by
        rintro ⟨_, _, _, c4⟩
        omega
      rw [if_pos hpct, if_neg hX]
    · rw [if_neg hpct, if_pos ⟨h3, h2, h4, by omega⟩]

/-- The double-precision percentage chain for price 1000, sale 750 is exact
at every step and rounds to 25. -/
theorem discount_chain_1000_750 :
    pyRound (roundDouble (roundDouble (1 - roundDouble ((750 : ℚ) / 1000)) * 100)) = 25 := by
  rw [roundDouble_34, show (1 : ℚ) - 3 / 4 = 1 / 4 by norm_num, roundDouble_14,
    show (1 : ℚ) / 4 * 100 = 25 by norm_num, roundDouble_25,
    show (25 : ℚ) = ((25 : ℤ) : ℚ) by norm_num, pyRound_intCast]

/-- The double-precision percentage chain for price 40, sale 17: `17 / 40`
rounds to the double just below 0.425, the subtraction ties to the even
significand, and the final double 57.49999999999999 rounds down to 57 — one
less than the exact rational 57.5 would give. -/
theorem discount_chain_40_17 :
    pyRound (roundDouble (roundDouble (1 - roundDouble ((17 : ℚ) / 40)) * 100)) = 57 := by
  rw [roundDouble_1740,
    show (1 : ℚ) - 7656119366529843 / 18014398509481984
      = 10358279142952141 / 18014398509481984 by norm_num,
    roundDouble_mid,
    show (2589569785738035 : ℚ) / 4503599627370496 * 100
      = 64739244643450875 / 1125899906842624 by norm_num,
    roundDouble_sc]
  exact pyRound_eq_low _ 57 (by norm_num) (by norm_num)
/-- Concrete parse: `"1000 TL"` is the double 1000. -/
theorem parse_money_1000 : parse_money_to_float "1000 TL" = some 1000 := by
  have h3 : ratOfParts ['1', '0', '0', '0'] [] = 1000 := by
    have hd : digitsToNat ['1', '0', '0', '0'] = 1000 := by decide
    have hd0 : digitsToNat [] = 0 := rfl
    simp only [ratOfParts, hd, hd0]
    norm_num
  simp only [parse_money_to_float]
  rw [if_neg (by decide : ¬("1000 TL" : String) = "")]
  rw [show "1000 TL".data.filter moneyKeepChar = ['1', '0', '0', '0'] by decide]
  rw [if_neg (by decide : ¬(['1', '0', '0', '0'] : List Char) = [])]
  rw [show sepTransform ['1', '0', '0', '0'] = ['1', '0', '0', '0'] by decide]
  rw [show pyFloatParse ['1', '0', '0', '0'] = some (['1', '0', '0', '0'], []) by decide]
  rw [Option.map_some']
  rw [h3, roundDouble_1000]

/-- Concrete parse: `"750 TL"` is the double 750. -/
theorem parse_money_750 : parse_money_to_float "750 TL" = some 750 := by
  have h3 : ratOfParts ['7', '5', '0'] [] = 750 := by
    have hd : digitsToNat ['7', '5', '0'] = 750 := by decide
    have hd0 : digitsToNat [] = 0 := rfl
    simp only [ratOfParts, hd, hd0]
    norm_num
  simp only [parse_money_to_float]
  rw [if_neg (by decide : ¬("750 TL" : String) = "")]
  rw [show "750 TL".data.filter moneyKeepChar = ['7', '5', '0'] by decide]
  rw [if_neg (by decide : ¬(['7', '5', '0'] : List Char) = [])]
  rw [show sepTransform ['7', '5', '0'] = ['7', '5', '0'] by decide]
  rw [show pyFloatParse ['7', '5', '0'] = some (['7', '5', '0'], []) by decide]
  rw [Option.map_some']
  rw [h3, roundDouble_750]

/-- Concrete parse: `"40 TL"` is the double 40. -/
theorem parse_money_40 : parse_money_to_float "40 TL" = some 40 := by
  have h3 : ratOfParts ['4', '0'] [] = 40 := by
    have hd : digitsToNat ['4', '0'] = 40 := by decide
    have hd0 : digitsToNat [] = 0 := rfl
    simp only [ratOfParts, hd, hd0]
    norm_num
  simp only [parse_money_to_float]
  rw [if_neg (by decide : ¬("40 TL" : String) = "")]
  rw [show "40 TL".data.filter moneyKeepChar = ['4', '0'] by decide]
  rw [if_neg (by decide : ¬(['4', '0'] : List Char) = [])]
  rw [show sepTransform ['4', '0'] = ['4', '0'] by decide]
  rw [show pyFloatParse ['4', '0'] = some (['4', '0'], []) by decide]
  rw [Option.map_some']
  rw [h3, roundDouble_40]

/-- Concrete parse: `"17 TL"` is the double 17. -/
theorem parse_money_17 : parse_money_to_float "17 TL" = some 17 := by
  have h3 : ratOfParts ['1', '7'] [] = 17 := by
    have hd : digitsToNat ['1', '7'] = 17 := by decide
    have hd0 : digitsToNat [] = 0 := rfl
    simp only [ratOfParts, hd, hd0]
    norm_num
  simp only [parse_money_to_float]
  rw [if_neg (by decide : ¬("17 TL" : String) = "")]
  rw [show "17 TL".data.filter moneyKeepChar = ['1', '7'] by decide]
  rw [if_neg (by decide : ¬(['1', '7'] : List Char) = [])]
  rw [show sepTransform ['1', '7'] = ['1', '7'] by decide]
  rw [show pyFloatParse ['1', '7'] = some (['1', '7'], []) by decide]
  rw [Option.map_some']
  rw [h3, roundDouble_17]

/-- Concrete parse: `"0 TL"` is the double 0. -/
theorem parse_money_0 : parse_money_to_float "0 TL" = some 0 := by
  have h3 : ratOfParts ['0'] [] = 0 := by
    have hd : digitsToNat ['0'] = 0 := by decide
    have hd0 : digitsToNat [] = 0 := rfl
    simp only [ratOfParts, hd, hd0]
    norm_num
  simp only [parse_money_to_float]
  rw [if_neg (by decide : ¬("0 TL" : String) = "")]
  rw [show "0 TL".data.filter moneyKeepChar = ['0'] by decide]
  rw [if_neg (by decide : ¬(['0'] : List Char) = [])]
  rw [show sepTransform ['0'] = ['0'] by decide]
  rw [show pyFloatParse ['0'] = some (['0'], []) by decide]
  rw [Option.map_some']
  rw [h3, roundDouble_0]

/-- C1 (amended): `discountPercent` returns the rounded percentage exactly
when both inputs parse as money, the price is positive, the sale parses to a
nonzero value strictly below the price, and the rounded percentage is
positive; in every other case — including a sale that parses to `0`, which the
falsy guard `not s` rejects — it returns no value.  The percentage is the
IEEE-754 double-precision evaluation of `round((1 - sale/price) * 100)`, which
can differ from exact arithmetic at representation ties: the spec's examples
hold (`("1000 TL", "750 TL") ↦ 25`, equal prices and an unparsable price give
no value), and `("40 TL", "17 TL") ↦ 57` even though the exact percentage is
57.5. -/
theorem calc_discount_spec (price sale : String) :
    (calc_discount_percent price sale =
      (match parse_money_to_float price, parse_money_to_float sale with
        | some p, some s =>
          if 0 < p ∧ s ≠ 0 ∧ s < p ∧
              0 < pyRound (roundDouble (roundDouble (1 - roundDouble (s / p)) * 100))
          then some (pyRound (roundDouble (roundDouble (1 - roundDouble (s / p)) * 100)))
          else none
        | _, _ => none))
    ∧ calc_discount_percent "1000 TL" "750 TL" = some 25
    ∧ calc_discount_percent "40 TL" "17 TL" = some 57
    ∧ calc_discount_percent "1000 TL" "1000 TL" = none
    ∧ calc_discount_percent "" "500" = none := by
  refine ⟨calc_discount_characterize price sale, ?_, ?_, ?_, ?_⟩
  · simp only [calc_discount_percent, parse_money_1000, parse_money_750,
      discount_chain_1000_750]
    norm_num
  · simp only [calc_discount_percent, parse_money_40, parse_money_17,
      discount_chain_40_17]
    norm_num
  · simp only [calc_discount_percent, parse_money_1000]
    rw [if_pos (Or.inr (Or.inr (Or.inr (le_refl _))))]
  · have h : parse_money_to_float "" = none := rfl
    simp only [calc_discount_percent, h]

/-- C1 counterexample: `"0 TL"` parses to `0.0`, the price 1000 is positive,
the sale 0 is strictly below it and the double-precision rounded percentage is
100 > 0, yet the code returns no value — the falsy guard `not s` rejects a
zero sale price, which the claim's precondition does not mention. -/
theorem calc_discount_zero_sale_cex :
    calc_discount_percent "1000 TL" "0 TL" = none
    ∧ parse_money_to_float "1000 TL" = some 1000
    ∧ parse_money_to_float "0 TL" = some 0
    ∧ (0 : ℚ) < 1000
    ∧ pyRound (roundDouble (roundDouble (1 - roundDouble ((0 : ℚ) / 1000)) * 100)) = 100 := by
  refine ⟨?_, parse_money_1000, parse_money_0, by norm_num, ?_⟩
  · simp only [calc_discount_percent, parse_money_1000, parse_money_0]
    norm_num
  · rw [show ((0 : ℚ) / 1000) = 0 by norm_num, roundDouble_0,
      show (1 : ℚ) - 0 = 1 by norm_num, roundDouble_one,
      show (1 : ℚ) * 100 = 100 by norm_num, roundDouble_100,
      show (100 : ℚ) = ((100 : ℤ) : ℚ) by norm_num, pyRound_intCast]

/-- C2 (amended): for every nonempty, non-data-URI URL the Image Resolver
performs exactly one fetch attempt, and on a failed fetch it degrades to the
transparent-PNG fallback immediately — there is no retry. -/
theorem to_data_uri_single_attempt (url : String) (fetch : Nat → FetchResult)
    (h1 : url ≠ "") (h2 : "data:".data.isPrefixOf url.data = false) :
    (to_data_uri url fetch).2 = 1
    ∧ (fetch 0 = FetchResult.exn → to_data_uri url fetch = (fallbackDataUri, 1)) := by
  unfold to_data_uri
  rw [if_neg h1, if_neg (by simp [h2])]
  rcases hf : fetch 0 with _ | r
  · exact ⟨rfl, fun _ => rfl⟩
  · constructor
    · dsimp only
      split_ifs <;> rfl
    · intro hcontra
      exact absurd hcontra (by simp)

/-- Witness for `to_data_uri_single_attempt` at `"http://x"` with an
always-failing fetch oracle. -/
theorem to_data_uri_single_attempt_witness :
    (to_data_uri "http://x" (fun _ => FetchResult.exn)).2 = 1
    ∧ ((fun _ => FetchResult.exn) 0 = FetchResult.exn →
        to_data_uri "http://x" (fun _ => FetchResult.exn) = (fallbackDataUri, 1)) :=
  to_data_uri_single_attempt "http://x" (fun _ => FetchResult.exn) (by decide) (by decide)

set_option maxRecDepth 4000 in
/-- C2 counterexample: with a fetch oracle whose first attempt raises and
whose second attempt would return a valid small image, the resolver falls back
after a single attempt — it never issues the second fetch the claim
requires. -/
theorem to_data_uri_no_retry_cex :
    to_data_uri "http://img" fetchFailThenImage = (fallbackDataUri, 1)
    ∧ fetchFailThenImage 1 = FetchResult.resp ⟨200, some "image/png", [137]⟩
    ∧ to_data_uri "http://img" (fun _ => fetchFailThenImage 1)
        = ("data:image/png;base64," ++ ⟨b64encode [137]⟩, 1) := by
  refine ⟨?_, rfl, ?_⟩ <;> decide

/-- C3: the `/render.png` endpoint never surfaces an error: for every
parameter assignment, template/CSS contents, fetch oracles and render oracle,
the response is `200 image/png` with the no-store `Cache-Control` header, and
its body is the rendered PNG when the render step succeeds and the fixed
transparent-PNG fallback whenever `render_png` raises. -/
theorem render_endpoint_never_errors (prm : RenderParams)
    (tc cc ts cs base : String) (fP fS1 fS2 fL : Nat → FetchResult)
    (render : String → Nat → Nat → Except String (List Nat)) :
    (render_endpoint prm tc cc ts cs base fP fS1 fS2 fL render).status = 200
    ∧ (render_endpoint prm tc cc ts cs base fP fS1 fS2 fL render).mediaType = "image/png"
    ∧ (render_endpoint prm tc cc ts cs base fP fS1 fS2 fL render).headers
        = [("Cache-Control", noStoreHeader)]
    ∧ listContainsSub "no-store".data noStoreHeader.data = true
    ∧ (render_endpoint prm tc cc ts cs base fP fS1 fS2 fL render).body
        = (match render (render_html prm tc cc ts cs base fP fS1 fS2 fL) 1080 1080 with
            | .ok b => b
            | .error _ => TRANSPARENT_PNG) :=
  ⟨rfl, rfl, rfl, by decide, rfl⟩

/-- C4: `render_png` retries the whole render exactly once, with exactly one
full supervisor restart, when and only when the first attempt fails with a
fatal browser/driver error; an ordinary first failure propagates with no
restart, and whatever the single retry produces (including a second fatal
failure) is final. -/
theorem render_png_fatal_retry (attempt : Nat → AttemptResult) :
    (∀ png, attempt 0 = AttemptResult.ok png →
      render_png attempt = ⟨Except.ok png, 1, 0⟩)
    ∧ (∀ e, attempt 0 = AttemptResult.err e → is_fatal_playwright_error e = true →
        (render_png attempt).restarts = 1 ∧ (render_png attempt).attempts = 2
        ∧ (render_png attempt).result =
            (match attempt 1 with
              | AttemptResult.ok b => Except.ok b
              | AttemptResult.err e2 => Except.error e2))
    ∧ (∀ e, attempt 0 = AttemptResult.err e → is_fatal_playwright_error e = false →
        render_png attempt = ⟨Except.error e, 1, 0⟩) := by
  refine ⟨?_, ?_, ?_⟩
  · intro png h
    simp [render_png, h]
  · intro e h hf
    have hr : render_png attempt =
        (match attempt 1 with
          | AttemptResult.ok b => (⟨Except.ok b, 2, 1⟩ : RenderTrace)
          | AttemptResult.err e2 => ⟨Except.error e2, 2, 1⟩) := by
      simp [render_png, h, hf]
    rcases h1 : attempt 1 with png | e2 <;> rw [hr, h1] <;> exact ⟨rfl, rfl, rfl⟩
  · intro e h hf
    simp [render_png, h, hf]

/-- Witness for `render_png_fatal_retry`: a fatal first failure followed by a
successful retry yields one restart, two attempts and the retry's bytes. -/
theorem render_png_fatal_retry_witness :
    (render_png fatalThenOkAttempt).restarts = 1
    ∧ (render_png fatalThenOkAttempt).attempts = 2
    ∧ (render_png fatalThenOkAttempt).result =
        (match fatalThenOkAttempt 1 with
          | AttemptResult.ok b => Except.ok b
          | AttemptResult.err e2 => Except.error e2) :=
  (render_png_fatal_retry fatalThenOkAttempt).2.1 "handler is closed" rfl (by decide)

/-- C10: the signature input encoding is not injective — `"|"` also occurs
inside fields, so the distinct tuples `("a|b", "c")` and `("a", "b|c")` join
to the same byte string and receive the same signature. -/
theorem build_sig_join_collision :
    build_sig ["a|b", "c"] = build_sig ["a", "b|c"]
    ∧ (("a|b", "c") ≠ (("a", "b|c") : String × String)) := by
  constructor
  · have h : String.intercalate "|" ["a|b", "c"] = String.intercalate "|" ["a", "b|c"] := by
      decide
    unfold build_sig
    rw [h]
  · decide

/-- Two characters are emitted per byte. -/
theorem flatMap_two_length (f g : Nat → Nat) (l : List Nat) :
    (l.flatMap fun b => [f b, g b]).length = 2 * l.length := by
  induction l with
  | nil => rfl
  | cons x r ih =>
    simp only [List.flatMap_cons, List.length_append, List.length_cons, ih]
    simp
    omega

/-- An MD5 digest is always 16 bytes. -/
theorem md5Bytes_length (msg : List Nat) : (md5Bytes msg).length = 16 := by
  simp [md5Bytes, le32]

/-- A signature nibble list has 32 entries. -/
theorem sigNibs_length (t : String) : (sigNibs t).length = 32 := by
  unfold sigNibs
  have h := flatMap_two_length (fun b => b / 16) (fun b => b) (md5Bytes (sigMsg t))
  simp only [h, md5Bytes_length]

/-- An MD5 hexdigest is always 32 characters. -/
theorem md5HexChars_length (msg : List Nat) : (md5HexChars msg).length = 32 := by
  unfold md5HexChars
  have h : ∀ l : List Nat,
      (l.flatMap fun b => [hexLowerDigit (b / 16), hexLowerDigit b]).length = 2 * l.length := by
    intro l
    induction l with
    | nil => rfl
    | cons x r ih =>
      simp only [List.flatMap_cons, List.length_append, List.length_cons, ih]
      simp
      omega
  simp only [h, md5Bytes_length]

/-- A hex digit character belongs to the lower-case hex alphabet. -/
theorem hexLowerDigit_mem (n : Nat) : hexLowerDigit n ∈ "0123456789abcdef".data := by
  unfold hexLowerDigit
  have hlt : n % 16 < ("0123456789abcdef".data).length := by
    have h16 : ("0123456789abcdef".data).length = 16 := by decide
    rw [h16]
    exact Nat.mod_lt _ (by norm_num)
  rw [List.getD_eq_getElem _ _ hlt]
  exact List.getElem_mem hlt

/-- C9 (amended): `build_sig` is deterministic (identical tuples yield
identical signatures) and fixed-width — the signature is always exactly 12
characters drawn from the lower-case hex alphabet.  (The claim's further
assertion that changing any single field always changes the signature is
refuted separately by counting.) -/
theorem build_sig_deterministic_fixed_width :
    (∀ x y : List String, x = y → build_sig x = build_sig y)
    ∧ (∀ parts : List String, (build_sig parts).length = 12)
    ∧ (∀ parts : List String, ∀ c ∈ (build_sig parts).data, c ∈ "0123456789abcdef".data) := by
  refine ⟨fun x y h => congrArg build_sig h, ?_, ?_⟩
  · intro parts
    show ((md5HexChars (utf8EncodeStr (String.intercalate "|" parts).data)).take 12).length = 12
    rw [List.length_take, md5HexChars_length]
    decide
  · intro parts c hc
    have hc' : c ∈ md5HexChars (utf8EncodeStr (String.intercalate "|" parts).data) :=
      List.take_subset 12 _ hc
    unfold md5HexChars at hc'
    rcases List.mem_flatMap.mp hc' with ⟨b, _, hb⟩
    simp only [List.mem_cons, List.not_mem_nil, or_false] at hb
    rcases hb with h | h
    · exact h ▸ hexLowerDigit_mem (b / 16)
    · exact h ▸ hexLowerDigit_mem b

/-- Witness for `build_sig_deterministic_fixed_width`. -/
theorem build_sig_deterministic_fixed_width_witness :
    build_sig ["x", "y"] = build_sig ["x", "y"]
    ∧ (build_sig ["x", "y"]).length = 12 :=
  ⟨build_sig_deterministic_fixed_width.1 ["x", "y"] ["x", "y"] rfl,
    build_sig_deterministic_fixed_width.2.1 ["x", "y"]⟩

/-- C9 counterexample: the signature is 48 bits wide while any single field
ranges over an infinite set, so by counting there are two distinct title
values (all other seven fields held fixed) with the same signature — "changing
any single field changes the signature" is false. -/
theorem build_sig_not_single_field_injective :
    ¬ (∀ t1 t2 : String,
        build_sig (sigProbeParts t1) = build_sig (sigProbeParts t2) → t1 = t2) := by
  intro hinj
  obtain ⟨a, b, hab, heq⟩ := Finite.exists_ne_map_eq_of_infinite sigFinProbe
  have hmap : ∀ t, md5HexChars (sigMsg t) = (sigNibs t).map hexLowerDigit := by
    intro t
    unfold md5HexChars sigNibs
    rw [List.map_flatMap]
    rfl
  have hsig : build_sig (sigProbeParts (aStr a)) = build_sig (sigProbeParts (aStr b)) := by
    show (⟨(md5HexChars (sigMsg (aStr a))).take 12⟩ : String)
        = ⟨(md5HexChars (sigMsg (aStr b))).take 12⟩
    have hl : ((sigNibs (aStr a)).map hexLowerDigit).take 12
        = ((sigNibs (aStr b)).map hexLowerDigit).take 12 := by
      apply List.ext_getElem
      · simp [List.length_take, sigNibs_length]
      · intro i h1 h2
        have hi12 : i < 12 := by
          simpa [List.length_take, sigNibs_length] using h1
        have hi32a : i < (sigNibs (aStr a)).length := by rw [sigNibs_length]; omega
        have hi32b : i < (sigNibs (aStr b)).length := by rw [sigNibs_length]; omega
        have hv : (sigNibs (aStr a)).getD i 0 % 16 = (sigNibs (aStr b)).getD i 0 % 16 :=
          congrArg Fin.val (congrFun heq ⟨i, hi12⟩)
        rw [List.getD_eq_getElem _ _ hi32a, List.getD_eq_getElem _ _ hi32b] at hv
        simp only [List.getElem_take, List.getElem_map]
        unfold hexLowerDigit
        rw [hv]
    rw [hmap, hmap, hl]
  have hstr : aStr a = aStr b := hinj _ _ hsig
  apply hab
  have hdata : List.replicate a 'a' = List.replicate b 'a' := congrArg String.data hstr
  have hlen := congrArg List.length hdata
  simpa using hlen

/-- `clean_url` of the empty string is empty. -/
theorem clean_url_empty : clean_url "" = "" := rfl

/-- A URL with a nonempty canonical form is itself nonempty. -/
theorem ne_empty_of_clean_ne (u : String) (h : clean_url u ≠ "") : u ≠ "" := by
  intro he
  subst he
  exact h rfl

/-- Every member the dedup fold ever appends has a nonempty canonical form. -/
theorem uniqUrls_fold_mem (all : List String) :
    ∀ st : List String × List String,
      (∀ u ∈ st.2, clean_url u ≠ "") →
      ∀ u ∈ (all.foldl uniqStep st).2, clean_url u ≠ "" := by
  induction all with
  | nil => intro st h u hu; exact h u hu
  | cons x r ih =>
    intro st h u hu
    rw [List.foldl_cons] at hu
    refine ih (uniqStep st x) ?_ u hu
    intro v hv
    simp only [uniqStep] at hv
    split_ifs at hv with hc
    · rcases List.mem_append.mp hv with hvin | hvx
      · exact h v hvin
      · rw [List.mem_singleton.mp hvx]
        exact hc.1
    · exact h v hv

/-- Every member of the dedup output has a nonempty canonical form. -/
theorem uniqUrls_mem_clean_ne (all : List String) :
    ∀ u ∈ uniqUrls all, clean_url u ≠ "" := by
  intro u hu
  exact uniqUrls_fold_mem all ([], []) (by intro v hv; cases hv) u hu

/-- Members of the dedup output are nonempty strings. -/
theorem uniqUrls_mem_ne_empty (all : List String) : ∀ u ∈ uniqUrls all, u ≠ "" :=
  fun u hu => ne_empty_of_clean_ne u (uniqUrls_mem_clean_ne all u hu)

/-- The primary output of `choose_images`: the first dedup survivor, or the
stripped primary text when nothing survived. -/
theorem choose_images_fst (p : String) (adds : List String) :
    (choose_images p adds).1 =
      (uniqUrls (candidateList p adds)).headD ⟨pyStrip p.data⟩ := rfl

/-- The secondary-1 output of `choose_images`. -/
theorem choose_images_snd (p : String) (adds : List String) :
    (choose_images p adds).2.1 =
      (if (uniqUrls (candidateList p adds)).getD 1 "" = "" then
        (uniqUrls (candidateList p adds)).headD ⟨pyStrip p.data⟩
      else (uniqUrls (candidateList p adds)).getD 1 "") := rfl

/-- The secondary-2 output of `choose_images`. -/
theorem choose_images_thd (p : String) (adds : List String) :
    (choose_images p adds).2.2 =
      (if (uniqUrls (candidateList p adds)).getD 2 "" = "" then
        (if (uniqUrls (candidateList p adds)).getD 1 "" = "" then
          (uniqUrls (candidateList p adds)).headD ⟨pyStrip p.data⟩
        else (uniqUrls (candidateList p adds)).getD 1 "")
      else (uniqUrls (candidateList p adds)).getD 2 "") := rfl

/-- Tuple equality from the three components. -/
theorem triple_ext {a b c : String} (t : String × String × String)
    (h1 : t.1 = a) (h2 : t.2.1 = b) (h3 : t.2.2 = c) : t = (a, b, c) := by
  rcases t with ⟨x, y, z⟩
  simp only at h1 h2 h3
  rw [h1, h2, h3]

/-- C6 (amended): `chooseImages` deduplicates the candidate list by canonical
key keeping first occurrences with their original text; missing secondaries
fall back to the previous chosen image (`chooseImages([p, p, s]) = (p, s, s)`,
a lone canonicalizable primary yields `(p, p, p)`); an output slot is empty
only when the stripped primary itself is empty and no candidate has a
nonempty canonical form, in which case all three outputs are empty — an empty
primary with a canonicalizable additional URL instead promotes that additional
to primary. -/
theorem choose_images_spec :
    choose_images "" [] = ("", "", "")
    ∧ (∀ p : String, pyStrip p.data = p.data → clean_url p ≠ "" →
        choose_images p [] = (p, p, p))
    ∧ (∀ p s : String, pyStrip p.data = p.data → pyStrip s.data = s.data →
        clean_url p ≠ "" → clean_url s ≠ "" → clean_url s ≠ clean_url p →
        choose_images p [p, s] = (p, s, s))
    ∧ (∀ p : String, ∀ adds : List String,
        (choose_images p adds).1 = "" → pyStrip p.data = [])
    ∧ (∀ p : String, ∀ adds : List String,
        (choose_images p adds).2.2 = "" → (choose_images p adds).1 = "") := by
  refine ⟨by decide, ?_, ?_, ?_, ?_⟩
  · intro p hp hc
    have hpr : (⟨pyStrip p.data⟩ : String) = p := by rw [hp]
    have hcand : candidateList p [] = [p] := by
      simp [candidateList, hpr]
    have huniq : uniqUrls [p] = [p] := by
      simp only [uniqUrls, List.foldl_cons, List.foldl_nil, uniqStep]
      rw [if_pos ⟨hc, by simp⟩]
      simp
    refine triple_ext _ ?_ ?_ ?_
    · rw [choose_images_fst, hcand, huniq, hpr]
      rfl
    · rw [choose_images_snd, hcand, huniq, hpr]
      simp [List.getD]
    · rw [choose_images_thd, hcand, huniq, hpr]
      simp [List.getD]
  · intro p s hp hs hcp hcs hne
    have hpr : (⟨pyStrip p.data⟩ : String) = p := by rw [hp]
    have hsr : (⟨pyStrip s.data⟩ : String) = s := by rw [hs]
    have hpne : p ≠ "" := ne_empty_of_clean_ne p hcp
    have hsne : s ≠ "" := ne_empty_of_clean_ne s hcs
    have hcand : candidateList p [p, s] = [p, p, s] := by
      simp [candidateList, hpr, hsr, hpne, hsne]
    have hstep1 : uniqStep ([], []) p = ([clean_url p], [p]) := by
      simp only [uniqStep]
      rw [if_pos ⟨hcp, by simp⟩]
      simp
    have hstep2 : uniqStep ([clean_url p], [p]) p = ([clean_url p], [p]) := by
      simp only [uniqStep]
      rw [if_neg (fun hcontra => hcontra.2 (by simp))]
    have hstep3 : uniqStep ([clean_url p], [p]) s = ([clean_url s, clean_url p], [p, s]) := by
      simp only [uniqStep]
      rw [if_pos ⟨hcs, by simp [hne]⟩]
      simp
    have huniq : uniqUrls [p, p, s] = [p, s] := by
      simp only [uniqUrls, List.foldl_cons, List.foldl_nil, hstep1, hstep2, hstep3]
    refine triple_ext _ ?_ ?_ ?_
    · rw [choose_images_fst, hcand, huniq]
      rfl
    · rw [choose_images_snd, hcand, huniq]
      simp [List.getD, hsne]
    · rw [choose_images_thd, hcand, huniq]
      simp [List.getD, hsne]
  · intro p adds h1
    rw [choose_images_fst] at h1
    rcases hu : uniqUrls (candidateList p adds) with _ | ⟨u, rest⟩
    · rw [hu, List.headD_nil] at h1
      exact congrArg String.data h1
    · rw [hu, List.headD_cons] at h1
      exact absurd h1 (uniqUrls_mem_ne_empty _ u (by rw [hu]; exact List.mem_cons_self u rest))
  · intro p adds h2
    rw [choose_images_thd] at h2
    rw [choose_images_fst]
    rcases hu : uniqUrls (candidateList p adds) with _ | ⟨a, _ | ⟨b, _ | ⟨c, rest⟩⟩⟩
    · rw [hu] at h2
      simpa using h2
    · rw [hu] at h2
      simp only [List.headD_cons]
      simpa using h2
    · have hbne : b ≠ "" := uniqUrls_mem_ne_empty _ b
        (by rw [hu]; exact List.mem_cons_of_mem a (List.mem_cons_self b _))
      rw [hu] at h2
      simp [hbne] at h2
    · have hcne : c ≠ "" := uniqUrls_mem_ne_empty _ c
        (by rw [hu]
            exact List.mem_cons_of_mem a (List.mem_cons_of_mem b (List.mem_cons_self c _)))
      rw [hu] at h2
      simp [hcne] at h2

/-- Witness for `choose_images_spec` at concrete distinct URLs. -/
theorem choose_images_spec_witness :
    choose_images "http://a" ["http://a", "http://b"] = ("http://a", "http://b", "http://b") :=
  choose_images_spec.2.2.1 "http://a" "http://b" (by decide) (by decide) (by decide)
    (by decide) (by decide)

set_option maxRecDepth 4000 in
/-- C6 counterexample: an absent (empty) primary with a canonicalizable
additional URL does not propagate empty strings — the additional URL is
promoted to primary and reused for both secondaries. -/
theorem choose_images_empty_primary_cex :
    choose_images "" ["http://a"] = ("http://a", "http://a", "http://a")
    ∧ ("http://a" : String) ≠ "" := by
  refine ⟨?_, by decide⟩
  decide

/-- Witness for `format_currency_exact_case`: a label with no exact-case
currency token is returned unchanged after normalization. -/
theorem format_currency_exact_case_witness :
    format_currency_tr "99 $" = norm_price "99 $" :=
  (format_currency_exact_case "99 $").2.1 (by decide) (by decide)

set_option maxRecDepth 4000 in
/-- C5 counterexample: `canonicalize` is not idempotent on CPython 3.x
semantics — `urlunsplit` only reintroduces the `//` marker for a nonempty
netloc or a known scheme, so `canonicalize("////") = "//"` while
`canonicalize("//") = ""`. -/
theorem clean_url_not_idempotent_cex :
    clean_url "////" = "//" ∧ clean_url (clean_url "////") = ""
    ∧ clean_url (clean_url "////") ≠ clean_url "////" := by
  refine ⟨?_, ?_, ?_⟩ <;> decide

/-- Character order converts to code-point order. -/
theorem char_le_toNat {a b : Char} (h : a ≤ b) : a.toNat ≤ b.toNat := by
  rw [Char.le_def, UInt32.le_def, BitVec.le_def] at h
  exact h

/-- Code-point order converts to character order. -/
theorem char_toNat_le {a b : Char} (h : a.toNat ≤ b.toNat) : a ≤ b := by
  rw [Char.le_def, UInt32.le_def, BitVec.le_def]
  exact h

/-- `Char.ofNat` below the surrogate range round-trips its code point. -/
theorem char_ofNat_toNat (n : Nat) (h : n < 55296) : (Char.ofNat n).toNat = n := by
  have hv : n.isValidChar := Or.inl h
  simp [Char.ofNat, hv, Char.ofNatAux, Char.toNat, UInt32.toNat]

/-- `Char.isUpper` in terms of code points. -/
theorem char_isUpper_iff (c : Char) : c.isUpper = true ↔ 65 ≤ c.toNat ∧ c.toNat ≤ 90 := by
  unfold Char.isUpper
  simp only [Bool.and_eq_true, decide_eq_true_eq]
  constructor
  · rintro ⟨h1, h2⟩
    rw [ge_iff_le, UInt32.le_def, BitVec.le_def] at h1
    rw [UInt32.le_def, BitVec.le_def] at h2
    exact ⟨h1, h2⟩
  · rintro ⟨h1, h2⟩
    refine ⟨?_, ?_⟩
    · rw [ge_iff_le, UInt32.le_def, BitVec.le_def]
      exact h1
    · rw [UInt32.le_def, BitVec.le_def]
      exact h2

/-- `Char.isLower` in terms of code points. -/
theorem char_isLower_iff (c : Char) : c.isLower = true ↔ 97 ≤ c.toNat ∧ c.toNat ≤ 122 := by
  unfold Char.isLower
  simp only [Bool.and_eq_true, decide_eq_true_eq]
  constructor
  · rintro ⟨h1, h2⟩
    rw [ge_iff_le, UInt32.le_def, BitVec.le_def] at h1
    rw [UInt32.le_def, BitVec.le_def] at h2
    exact ⟨h1, h2⟩
  · rintro ⟨h1, h2⟩
    refine ⟨?_, ?_⟩
    · rw [ge_iff_le, UInt32.le_def, BitVec.le_def]
      exact h1
    · rw [UInt32.le_def, BitVec.le_def]
      exact h2

/-- `Char.isDigit` in terms of code points. -/
theorem char_isDigit_iff (c : Char) : c.isDigit = true ↔ 48 ≤ c.toNat ∧ c.toNat ≤ 57 := by
  unfold Char.isDigit
  simp only [Bool.and_eq_true, decide_eq_true_eq]
  constructor
  · rintro ⟨h1, h2⟩
    rw [ge_iff_le, UInt32.le_def, BitVec.le_def] at h1
    rw [UInt32.le_def, BitVec.le_def] at h2
    exact ⟨h1, h2⟩
  · rintro ⟨h1, h2⟩
    refine ⟨?_, ?_⟩
    · rw [ge_iff_le, UInt32.le_def, BitVec.le_def]
      exact h1
    · rw [UInt32.le_def, BitVec.le_def]
      exact h2

/-- `Char.isAlpha` in terms of code points. -/
theorem char_isAlpha_iff (c : Char) :
    c.isAlpha = true ↔ (65 ≤ c.toNat ∧ c.toNat ≤ 90) ∨ (97 ≤ c.toNat ∧ c.toNat ≤ 122) := by
  unfold Char.isAlpha
  rw [Bool.or_eq_true, char_isUpper_iff, char_isLower_iff]

/-- The code point of a `lowerChar` image. -/
theorem lowerChar_toNat (c : Char) :
    (lowerChar c).toNat =
      if 65 ≤ c.toNat ∧ c.toNat ≤ 90 then c.toNat + 32 else c.toNat := by
  unfold lowerChar
  by_cases h : 'A' ≤ c ∧ c ≤ 'Z'
  · have h1 := char_le_toNat h.1
    have h2 := char_le_toNat h.2
    have hA : ('A' : Char).toNat = 65 := rfl
    have hZ : ('Z' : Char).toNat = 90 := rfl
    rw [hA] at h1
    rw [hZ] at h2
    rw [if_pos h, char_ofNat_toNat _ (by omega), if_pos ⟨h1, h2⟩]
  · rw [if_neg h, if_neg ?_]
    rintro ⟨h1, h2⟩
    refine h ⟨char_toNat_le ?_, char_toNat_le ?_⟩
    · show ('A' : Char).toNat ≤ c.toNat
      have hA : ('A' : Char).toNat = 65 := rfl
      omega
    · show c.toNat ≤ ('Z' : Char).toNat
      have hZ : ('Z' : Char).toNat = 90 := rfl
      omega

/-- `lowerChar` fixes anything outside the upper-case ASCII range. -/
theorem lowerChar_eq_self (c : Char) (h : ¬(65 ≤ c.toNat ∧ c.toNat ≤ 90)) :
    lowerChar c = c := by
  unfold lowerChar
  rw [if_neg ?_]
  rintro ⟨h1, h2⟩
  have hA : ('A' : Char).toNat = 65 := rfl
  have hZ : ('Z' : Char).toNat = 90 := rfl
  have k1 := char_le_toNat h1
  have k2 := char_le_toNat h2
  rw [hA] at k1
  rw [hZ] at k2
  exact h ⟨k1, k2⟩

/-- `lowerChar` is idempotent. -/
theorem lowerChar_idem (c : Char) : lowerChar (lowerChar c) = lowerChar c := by
  have hn := lowerChar_toNat c
  refine lowerChar_eq_self (lowerChar c) ?_
  by_cases hr : 65 ≤ c.toNat ∧ c.toNat ≤ 90 <;> simp [hr] at hn <;> omega

/-- `lowerStr` is idempotent. -/
theorem lowerStr_idem (l : List Char) : lowerStr (lowerStr l) = lowerStr l := by
  unfold lowerStr
  rw [List.map_map]
  exact List.map_congr_left fun c _ => lowerChar_idem c

/-- `lowerChar` preserves ASCII letters. -/
theorem lowerChar_isAlpha (c : Char) (h : c.isAlpha = true) :
    (lowerChar c).isAlpha = true := by
  by_cases hr : 65 ≤ c.toNat ∧ c.toNat ≤ 90
  · have hn := lowerChar_toNat c
    rw [if_pos hr] at hn
    rw [char_isAlpha_iff]
    right
    omega
  · rw [lowerChar_eq_self c hr]
    exact h

/-- `lowerChar` preserves scheme characters. -/
theorem lowerChar_schemeChar (c : Char) (h : schemeChar c = true) :
    schemeChar (lowerChar c) = true := by
  by_cases hr : 65 ≤ c.toNat ∧ c.toNat ≤ 90
  · have hn := lowerChar_toNat c
    rw [if_pos hr] at hn
    unfold schemeChar Char.isAlphanum
    simp only [Bool.or_eq_true]
    left
    left
    left
    rw [char_isAlpha_iff]
    left
    right
    omega
  · rw [lowerChar_eq_self c hr]
    exact h
theorem char_valid_range (c : Char) :
    c.toNat < 55296 ∨ (57343 < c.toNat ∧ c.toNat < 1114112) := c.valid


theorem utf8EncodeChar_ne_nil (c : Char) : utf8EncodeChar c ≠ [] := by
  simp only [utf8EncodeChar]
  split_ifs <;> simp

theorem utf8EncodeChar_lt (c : Char) : ∀ b ∈ utf8EncodeChar c, b < 256 := by
  have hv := char_valid_range c
  intro b hb
  simp only [utf8EncodeChar] at hb
  split_ifs at hb with h1 h2 h3 <;> simp at hb <;> omega

theorem hexDigitVal_hexUpperDigit (n : Nat) (h : n < 16) :
    hexDigitVal (hexUpperDigit n) = some n := by
  interval_cases n <;> rfl


theorem collectPct_not_pct (d : Char) (r : List Char) (hd : d ≠ '%') :
    collectPct (d :: r) = ([], d :: r) := by
  match r with
  | [] => rfl
  | [x] => rfl
  | x :: y :: r2 =>
    simp only [collectPct]
    rw [if_neg hd]

theorem collectPct_flatMap (bs : List Nat) (rest : List Char)
    (hb : ∀ b ∈ bs, b < 256) (hrest : collectPct rest = ([], rest)) :
    collectPct (bs.flatMap pctByte ++ rest) = (bs, rest) := by
  induction bs with
  | nil => simpa using hrest
  | cons b bs ih =>
    have hblt : b < 256 := hb b (List.mem_cons_self b bs)
    have h1 : hexDigitVal (hexUpperDigit (b / 16)) = some (b / 16) :=
      hexDigitVal_hexUpperDigit _ (by omega)
    have h2 : hexDigitVal (hexUpperDigit (b % 16)) = some (b % 16) :=
      hexDigitVal_hexUpperDigit _ (by omega)
    have ih' := ih (fun x hx => hb x (List.mem_cons_of_mem b hx))
    simp only [List.flatMap_cons, pctByte, List.cons_append, List.nil_append,
      List.append_assoc]
    simp only [collectPct, h1, h2, if_pos]
    rw [ih']
    have hbv : 16 * (b / 16) + b % 16 = b := by omega
    simp [hbv]

theorem utf8Step_encode (c : Char) (rest : List Nat) :
    ∃ b tl, utf8EncodeChar c = b :: tl ∧ utf8Step b (tl ++ rest) = (c, rest) := by
  have hv := char_valid_range c
  simp only [utf8EncodeChar]
  by_cases h1 : c.toNat < 128
  · rw [if_pos h1]
    refine ⟨_, _, rfl, ?_⟩
    simp only [utf8Step, List.nil_append]
    rw [if_pos h1, Char.ofNat_toNat]
  · rw [if_neg h1]
    by_cases h2 : c.toNat < 2048
    · rw [if_pos h2]
      refine ⟨_, _, rfl, ?_⟩
      simp only [utf8Step, List.cons_append, List.nil_append]
      rw [if_neg (by omega), if_pos (by constructor <;> omega)]
      rw [if_pos (by constructor <;> omega)]
      have hval : (192 + c.toNat / 64 - 192) * 64 + (128 + c.toNat % 64 - 128)
          = c.toNat := by omega
      rw [hval]
      simp only [utf8DecodeValid]
      rw [if_pos (by omega), Char.ofNat_toNat]
    · rw [if_neg h2]
      by_cases h3 : c.toNat < 65536
      · rw [if_pos h3]
        refine ⟨_, _, rfl, ?_⟩
        simp only [utf8Step, List.cons_append, List.nil_append]
        rw [if_neg (by omega), if_neg (by omega), if_pos (by constructor <;> omega)]
        rw [if_pos (by exact ⟨⟨by omega, by omega⟩, by omega, by omega⟩)]
        have hval : (224 + c.toNat / 4096 - 224) * 4096
            + (128 + c.toNat / 64 % 64 - 128) * 64 + (128 + c.toNat % 64 - 128)
            = c.toNat := by omega
        rw [hval]
        simp only [utf8DecodeValid]
        rw [if_pos (by omega), Char.ofNat_toNat]
      · rw [if_neg h3]
        refine ⟨_, _, rfl, ?_⟩
        simp only [utf8Step, List.cons_append, List.nil_append]
        rw [if_neg (by omega), if_neg (by omega), if_neg (by omega),
          if_pos (by constructor <;> omega)]
        rw [if_pos (by exact ⟨⟨by omega, by omega⟩, ⟨by omega, by omega⟩,
          by omega, by omega⟩)]
        have hval : (240 + c.toNat / 262144 - 240) * 262144
            + (128 + c.toNat / 4096 % 64 - 128) * 4096
            + (128 + c.toNat / 64 % 64 - 128) * 64 + (128 + c.toNat % 64 - 128)
            = c.toNat := by omega
        rw [hval]
        simp only [utf8DecodeValid]
        rw [if_pos (by omega), Char.ofNat_toNat]

theorem utf8DecodeAux_flatMap (cs : List Char) :
    ∀ fuel, (cs.flatMap utf8EncodeChar).length ≤ fuel →
      utf8DecodeAux fuel (cs.flatMap utf8EncodeChar) = cs := by
  induction cs with
  | nil => intro fuel _; cases fuel <;> rfl
  | cons c cs ih =>
    intro fuel hlen
    obtain ⟨b, tl, henc, hstep⟩ := utf8Step_encode c (cs.flatMap utf8EncodeChar)
    rw [List.flatMap_cons, henc] at hlen ⊢
    simp only [List.cons_append, List.length_cons, List.length_append] at hlen ⊢
    match fuel, hlen with
    | f + 1, hlen =>
      simp only [utf8DecodeAux, hstep]
      rw [ih f (by omega)]

theorem utf8Decode_flatMap (cs : List Char) :
    utf8Decode (cs.flatMap utf8EncodeChar) = cs :=
  utf8DecodeAux_flatMap cs _ le_rfl








theorem flatMap_congr_mem {α β : Type} (l : List α) (f g : α → List β)
    (h : ∀ x ∈ l, f x = g x) : l.flatMap f = l.flatMap g := by
  induction l with
  | nil => rfl
  | cons a t ih =>
    rw [List.flatMap_cons, List.flatMap_cons, h a (List.mem_cons_self a t),
      ih (fun x hx => h x (List.mem_cons_of_mem a hx))]

theorem dropWhile_head_not {α : Type} (p : α → Bool) (l : List α) (x : α) (xs : List α)
    (h : l.dropWhile p = x :: xs) : p x = false := by
  induction l with
  | nil => simp at h
  | cons a t ih =>
    rw [List.dropWhile_cons] at h
    by_cases hp : p a = true
    · rw [if_pos hp] at h
      exact ih h
    · rw [if_neg hp] at h
      cases h
      simpa using hp


theorem hexUpperDigit_ne_plus (n : Nat) : ¬((hexUpperDigit n == '+') = true) := by
  simp only [hexUpperDigit]
  have h : n % 16 < 16 := Nat.mod_lt _ (by omega)
  set k := n % 16 with hk
  interval_cases k <;> decide

theorem quote_char_pass (c : Char) (h : c = ' ' ∨ urlSafeChar c = true) :
    (if c == ' ' then [' ']
      else if urlSafeChar c = true then [c]
      else (utf8EncodeChar c).flatMap pctByte) = [c] ∧ c ≠ '%' := by
  rcases h with h | h
  · subst h; exact ⟨rfl, by decide⟩
  · have hcs : c ≠ ' ' := fun hc => by subst hc; exact absurd h (by decide)
    have hcp : c ≠ '%' := fun hc => by subst hc; exact absurd h (by decide)
    refine ⟨?_, hcp⟩
    rw [if_neg (by simpa using hcs), if_pos h]

theorem unquoteStep_pct (b0 : Nat) (bs : List Nat) (rest : List Char)
    (hb : ∀ b ∈ b0 :: bs, b < 256)
    (hrest : collectPct rest = ([], rest)) :
    unquoteStep '%'
        (hexUpperDigit (b0 / 16) :: hexUpperDigit (b0 % 16)
          :: (bs.flatMap pctByte ++ rest))
      = (utf8Decode (b0 :: bs), rest) := by
  have hb0 : b0 < 256 := hb b0 (List.mem_cons_self _ _)
  have h1 : hexDigitVal (hexUpperDigit (b0 / 16)) = some (b0 / 16) :=
    hexDigitVal_hexUpperDigit _ (by omega)
  have h2 : hexDigitVal (hexUpperDigit (b0 % 16)) = some (b0 % 16) :=
    hexDigitVal_hexUpperDigit _ (by omega)
  have hsh : ('%' : Char) :: hexUpperDigit (b0 / 16) :: hexUpperDigit (b0 % 16)
      :: (bs.flatMap pctByte ++ rest) = (b0 :: bs).flatMap pctByte ++ rest := by
    simp [pctByte]
  simp only [unquoteStep, h1, h2, if_true]
  rw [hsh, collectPct_flatMap (b0 :: bs) rest hb hrest]


theorem unquoteStep_pass (c : Char) (rest : List Char) (h : c ≠ '%') :
    unquoteStep c rest = ([c], rest) := by
  simp only [unquoteStep]
  rw [if_neg h]

theorem unquoteAux_encoded : ∀ N s, s.length ≤ N → ∀ fuel,
    (s.flatMap fun c => if c == ' ' then [' ']
        else if urlSafeChar c = true then [c]
        else (utf8EncodeChar c).flatMap pctByte).length ≤ fuel →
    unquoteAux fuel (s.flatMap fun c => if c == ' ' then [' ']
        else if urlSafeChar c = true then [c]
        else (utf8EncodeChar c).flatMap pctByte) = s := by
  intro N
  induction N with
  | zero =>
    intro s hs fuel _
    have hnil : s = [] := List.length_eq_zero.mp (Nat.le_zero.mp hs)
    subst hnil
    cases fuel <;> rfl
  | succ N ih =>
    intro s hs fuel hf
    cases s with
    | nil => cases fuel <;> rfl
    | cons c t =>
      by_cases hpass : c = ' ' ∨ urlSafeChar c = true
      · obtain ⟨hEc, hne⟩ := quote_char_pass c hpass
        rw [List.flatMap_cons, hEc] at hf ⊢
        cases fuel with
        | zero => simp at hf
        | succ f =>
          simp only [List.singleton_append] at hf ⊢
          simp only [unquoteAux, unquoteStep_pass c _ hne]
          simp only [List.singleton_append, List.cons.injEq, true_and]
          refine ih t (by simp at hs; omega) f ?_
          simp only [List.length_cons] at hf
          omega
      · push_neg at hpass
        obtain ⟨hc1, hc2⟩ := hpass
        have hc2' : urlSafeChar c = false := by
          cases h : urlSafeChar c
          · rfl
          · exact absurd h hc2
        set U : Char → Bool := fun x => !(x == ' ') && !(urlSafeChar x) with hU
        have hUc : U c = true := by simp [hU, hc1, hc2']
        have hsplit : (c :: t).takeWhile U ++ (c :: t).dropWhile U = c :: t :=
          List.takeWhile_append_dropWhile U (c :: t)
        have hrun_cons : (c :: t).takeWhile U = c :: t.takeWhile U := by
          simp [List.takeWhile_cons, hUc]
        have hrunE : ((c :: t).takeWhile U).flatMap
              (fun c => if c == ' ' then [' ']
                else if urlSafeChar c = true then [c]
                else (utf8EncodeChar c).flatMap pctByte)
            = (((c :: t).takeWhile U).flatMap utf8EncodeChar).flatMap pctByte := by
          rw [List.flatMap_assoc]
          refine flatMap_congr_mem _ _ _ fun x hx => ?_
          have hxU : U x = true := List.mem_takeWhile_imp hx
          have hx12 : ¬x = ' ' ∧ urlSafeChar x = false := by
            simpa [hU] using hxU
          rw [if_neg (by simpa using hx12.1), if_neg (by simp [hx12.2])]
        have hrest : collectPct (((c :: t).dropWhile U).flatMap
              (fun c => if c == ' ' then [' ']
                else if urlSafeChar c = true then [c]
                else (utf8EncodeChar c).flatMap pctByte))
            = ([], ((c :: t).dropWhile U).flatMap
              (fun c => if c == ' ' then [' ']
                else if urlSafeChar c = true then [c]
                else (utf8EncodeChar c).flatMap pctByte)) := by
          rcases ht : (c :: t).dropWhile U with _ | ⟨d, t2⟩
          · rfl
          · have hd : U d = false := dropWhile_head_not U (c :: t) d t2 ht
            have hd' : d = ' ' ∨ urlSafeChar d = true := by
              by_cases h1 : d = ' '
              · exact Or.inl h1
              · by_cases h2 : urlSafeChar d = true
                · exact Or.inr h2
                · exfalso
                  have h2' : urlSafeChar d = false := by
                    cases h : urlSafeChar d
                    · rfl
                    · exact absurd h h2
                  simp [hU, h1, h2'] at hd
            obtain ⟨hEd, hdne⟩ := quote_char_pass d hd'
            rw [List.flatMap_cons, hEd, List.singleton_append]
            exact collectPct_not_pct d _ hdne
        rcases hec : utf8EncodeChar c with _ | ⟨b0, btl⟩
        · exact absurd hec (utf8EncodeChar_ne_nil c)
        have hbytes : ((c :: t).takeWhile U).flatMap utf8EncodeChar
            = b0 :: (btl ++ (t.takeWhile U).flatMap utf8EncodeChar) := by
          rw [hrun_cons, List.flatMap_cons, hec, List.cons_append]
        have hblt : ∀ b ∈ b0 :: (btl ++ (t.takeWhile U).flatMap utf8EncodeChar),
            b < 256 := by
          intro b hb
          rw [← hbytes] at hb
          rcases List.mem_flatMap.mp hb with ⟨x, _, hbx⟩
          exact utf8EncodeChar_lt x b hbx
        have hpct0 : pctByte b0
            = '%' :: hexUpperDigit (b0 / 16) :: hexUpperDigit (b0 % 16) :: [] := rfl
        rw [← hsplit, List.flatMap_append, hrunE, hbytes, List.flatMap_cons, hpct0]
          at hf ⊢
        simp only [List.cons_append, List.nil_append, List.append_assoc] at hf ⊢
        cases fuel with
        | zero => simp at hf
        | succ f =>
          simp only [unquoteAux]
          rw [unquoteStep_pct b0 _ _ hblt hrest]
          dsimp only
          rw [← hbytes, utf8Decode_flatMap]
          have hlen := congrArg List.length hsplit
          simp only [List.length_append, List.length_cons] at hlen
          have htk : ((c :: t).takeWhile U).length = (t.takeWhile U).length + 1 := by
            rw [hrun_cons]; simp
          simp only [List.length_cons] at hs
          simp only [List.length_cons, List.length_append] at hf
          rw [ih _ (by omega) f (by omega)]


theorem map_plus_quote_plus (s : List Char) :
    (quote_plus s).map (fun c => if c == '+' then ' ' else c)
      = s.flatMap fun c => if c == ' ' then [' ']
          else if urlSafeChar c = true then [c]
          else (utf8EncodeChar c).flatMap pctByte := by
  unfold quote_plus
  rw [List.map_flatMap]
  refine flatMap_congr_mem _ _ _ fun x _ => ?_
  by_cases h1 : x = ' '
  · subst h1; rfl
  · have hxs : (x == ' ') = false := by simpa using h1
    by_cases h2 : urlSafeChar x = true
    · have hxp : x ≠ '+' := fun hc => by subst hc; exact absurd h2 (by decide)
      simp [hxs, h2, hxp]
    · have h2' : urlSafeChar x = false := by
        cases h : urlSafeChar x
        · rfl
        · exact absurd h h2
      simp only [hxs, h2', Bool.false_eq_true, if_false]
      rw [List.map_flatMap]
      refine flatMap_congr_mem _ _ _ fun b _ => ?_
      simp only [pctByte, List.map_cons, List.map_nil]
      rw [if_neg (by decide), if_neg (hexUpperDigit_ne_plus _),
        if_neg (hexUpperDigit_ne_plus _)]

theorem unquote_plus_quote_plus (s : List Char) :
    unquote_plus (quote_plus s) = s := by
  unfold unquote_plus unquote
  rw [map_plus_quote_plus]
  exact unquoteAux_encoded s.length s le_rfl _ le_rfl


theorem intercalate_singleton_eq (s a : List Char) : List.intercalate s [a] = a := by
  simp [List.intercalate, List.intersperse]

theorem intercalate_cons_cons_eq (s a b : List Char) (t : List (List Char)) :
    List.intercalate s (a :: b :: t) = a ++ s ++ List.intercalate s (b :: t) := by
  simp [List.intercalate, List.intersperse]


theorem splitSep_shape (sep : Char) (l : List Char) :
    splitSep sep l = (splitSep sep l).headD [] :: (splitSep sep l).tail := by
  cases l with
  | nil => rfl
  | cons c r =>
    simp only [splitSep]
    by_cases h : (c == sep) = true
    · rw [if_pos h]; rfl
    · rw [if_neg h]; rfl

theorem splitSep_append_no (sep : Char) (p l : List Char) (hp : sep ∉ p) :
    splitSep sep (p ++ l)
      = (p ++ (splitSep sep l).headD []) :: (splitSep sep l).tail := by
  induction p with
  | nil => simpa using splitSep_shape sep l
  | cons c p' ih =>
    have hc : c ≠ sep := fun h => hp (h ▸ List.mem_cons_self c p')
    have ih' := ih fun h => hp (List.mem_cons_of_mem c h)
    simp only [List.cons_append, splitSep, List.append_eq]
    rw [ih']
    rw [if_neg (by simpa using hc)]
    simp only [List.headD_cons, List.tail_cons, List.cons_append]

theorem splitSep_sep_cons (sep : Char) (l : List Char) :
    splitSep sep (sep :: l) = [] :: splitSep sep l := by
  simp only [splitSep]
  rw [if_pos (by simp)]

theorem splitSep_intercalate (parts : List (List Char))
    (h : ∀ p ∈ parts, '&' ∉ p) (hne : parts ≠ []) :
    splitSep '&' (List.intercalate ['&'] parts) = parts := by
  induction parts with
  | nil => exact absurd rfl hne
  | cons p rest ih =>
    cases rest with
    | nil =>
      have hsingle := splitSep_append_no '&' p [] (h p (List.mem_cons_self _ _))
      have h0 : splitSep '&' ([] : List Char) = [[]] := rfl
      rw [h0] at hsingle
      simp only [List.headD_cons, List.tail_cons, List.append_nil] at hsingle
      rw [intercalate_singleton_eq, hsingle]
    | cons q rest2 =>
      rw [intercalate_cons_cons_eq, List.append_assoc, List.singleton_append]
      rw [splitSep_append_no '&' p _ (h p (List.mem_cons_self _ _))]
      rw [splitSep_sep_cons]
      rw [ih (fun x hx => h x (List.mem_cons_of_mem p hx)) (by simp)]
      simp


theorem hexUpperDigit_mem (n : Nat) :
    hexUpperDigit n ∈ ['0','1','2','3','4','5','6','7','8','9','A','B','C','D','E','F'] := by
  simp only [hexUpperDigit]
  have h : n % 16 < 16 := Nat.mod_lt _ (by omega)
  set k := n % 16 with hk
  interval_cases k <;> decide

theorem quote_plus_mem (s : List Char) (c : Char) (hc : c ∈ quote_plus s) :
    urlSafeChar c = true ∨
      c ∈ ['+', '%', '0','1','2','3','4','5','6','7','8','9','A','B','C','D','E','F'] := by
  unfold quote_plus at hc
  rcases List.mem_flatMap.mp hc with ⟨x, _, hx⟩
  by_cases h1 : x = ' '
  · subst h1
    simp at hx
    subst hx
    right
    simp
  · have hxs : (x == ' ') = false := by simpa using h1
    simp only [hxs, Bool.false_eq_true, if_false] at hx
    by_cases h2 : urlSafeChar x = true
    · rw [if_pos h2] at hx
      simp at hx
      subst hx
      exact Or.inl h2
    · rw [if_neg h2] at hx
      rcases List.mem_flatMap.mp hx with ⟨b, _, hb⟩
      simp only [pctByte, List.mem_cons, List.not_mem_nil, or_false] at hb
      rcases hb with hb | hb | hb
      · subst hb; right; simp
      · subst hb
        right
        exact List.mem_cons_of_mem _ (List.mem_cons_of_mem _ (hexUpperDigit_mem _))
      · subst hb
        right
        exact List.mem_cons_of_mem _ (List.mem_cons_of_mem _ (hexUpperDigit_mem _))

theorem quote_plus_not_mem (s : List Char) (z : Char)
    (h1 : urlSafeChar z = false)
    (h2 : z ∉ ['+', '%', '0','1','2','3','4','5','6','7','8','9','A','B','C','D','E','F']) :
    z ∉ quote_plus s := by
  intro hz
  rcases quote_plus_mem s z hz with h | h
  · rw [h1] at h
    cases h
  · exact h2 h

theorem takeWhile_middle (p : Char → Bool) (a : List Char) (c : Char) (b : List Char)
    (ha : ∀ x ∈ a, p x = true) (hc : p c = false) :
    (a ++ c :: b).takeWhile p = a ∧ (a ++ c :: b).dropWhile p = c :: b := by
  induction a with
  | nil => simp [List.takeWhile_cons, List.dropWhile_cons, hc]
  | cons x xs ih =>
    have hx : p x = true := ha x (List.mem_cons_self _ _)
    obtain ⟨ht, hd⟩ := ih fun y hy => ha y (List.mem_cons_of_mem x hy)
    constructor
    · simp [List.takeWhile_cons, hx, ht]
    · simp [List.dropWhile_cons, hx, hd]

theorem parse_chunk_pair (k v : List Char) :
    (if (quote_plus k ++ '=' :: quote_plus v) = [] then none
     else some (unquote_plus (splitFirstEq (quote_plus k ++ '=' :: quote_plus v)).1,
                unquote_plus (splitFirstEq (quote_plus k ++ '=' :: quote_plus v)).2))
      = some (k, v) := by
  have hne : quote_plus k ++ '=' :: quote_plus v ≠ [] := by simp
  rw [if_neg hne]
  have hkeq : ∀ x ∈ quote_plus k, (x != '=') = true := by
    intro x hx
    have : x ≠ '=' := by
      intro hxe
      subst hxe
      exact quote_plus_not_mem k '=' (by decide) (by decide) hx
    simpa using this
  obtain ⟨ht, hd⟩ := takeWhile_middle (fun c => c != '=') (quote_plus k) '='
    (quote_plus v) hkeq (by decide)
  simp only [splitFirstEq, ht, hd, List.tail_cons]
  rw [unquote_plus_quote_plus, unquote_plus_quote_plus]

theorem amp_not_mem_chunk (k v : List Char) :
    '&' ∉ quote_plus k ++ '=' :: quote_plus v := by
  intro h
  rcases List.mem_append.mp h with h | h
  · exact quote_plus_not_mem k '&' (by decide) (by decide) h
  · rcases List.mem_cons.mp h with h | h
    · cases h
    · exact quote_plus_not_mem v '&' (by decide) (by decide) h

theorem parse_qsl_urlencode (l : List (List Char × List Char)) :
    parse_qsl (urlencode l) = l := by
  cases l with
  | nil => rfl
  | cons kv0 rest0 =>
    unfold parse_qsl urlencode
    rw [splitSep_intercalate _ ?hp (by simp)]
    case hp =>
      intro p hp
      rcases List.mem_map.mp hp with ⟨kv, _, rfl⟩
      exact amp_not_mem_chunk kv.1 kv.2
    rw [List.filterMap_map]
    have hall : ∀ L : List (List Char × List Char),
        List.filterMap ((fun chunk =>
            if chunk = [] then none
            else some (unquote_plus (splitFirstEq chunk).1,
              unquote_plus (splitFirstEq chunk).2)) ∘
          fun kv => quote_plus kv.1 ++ '=' :: quote_plus kv.2) L = L := by
      intro L
      induction L with
      | nil => rfl
      | cons a t ih =>
        rw [List.filterMap_cons]
        simp only [Function.comp]
        rw [parse_chunk_pair a.1 a.2]
        rw [ih]
    exact hall (kv0 :: rest0)


theorem schemeScan_append (cs rest : List Char) (h : ∀ x ∈ cs, schemeChar x = true) :
    schemeScan (cs ++ ':' :: rest) = some (cs, rest) := by
  induction cs with
  | nil => rfl
  | cons c cs' ih =>
    have hc : schemeChar c = true := h c (List.mem_cons_self _ _)
    have hcc : c ≠ ':' := by
      intro hc'
      subst hc'
      exact absurd hc (by decide)
    simp only [List.cons_append, schemeScan, List.append_eq]
    rw [if_neg hcc, if_pos hc, ih fun x hx => h x (List.mem_cons_of_mem c hx)]

theorem schemeScan_none_append (l ext : List Char) (h : schemeScan l = none)
    (hext : ext = [] ∨ ∃ e es, ext = e :: es ∧ schemeChar e = false ∧ e ≠ ':') :
    schemeScan (l ++ ext) = none := by
  induction l with
  | nil =>
    rcases hext with h1 | ⟨e, es, h1, h2, h3⟩
    · subst h1; rfl
    · subst h1
      simp [schemeScan, h2, h3]
  | cons c r ih =>
    simp only [schemeScan] at h
    by_cases hc : c = ':'
    · rw [if_pos hc] at h
      cases h
    · rw [if_neg hc] at h
      by_cases hsc : schemeChar c = true
      · rw [if_pos hsc] at h
        have hr : schemeScan r = none := by
          rcases hscan : schemeScan r with _ | p
          · rfl
          · rw [hscan] at h
            cases h
        simp only [List.cons_append, schemeScan, List.append_eq]
        rw [if_neg hc, if_pos hsc, ih hr]
      · simp only [List.cons_append, schemeScan, List.append_eq]
        rw [if_neg hc, if_neg hsc]

theorem schemeScan_none_takeWhile (l : List Char) (z : Char)
    (hzs : schemeChar z = false) (hzc : z ≠ ':')
    (h : schemeScan l = none) :
    schemeScan (l.takeWhile (fun c => c != z)) = none := by
  induction l with
  | nil => rfl
  | cons c r ih =>
    by_cases hcz : c = z
    · subst hcz
      rw [List.takeWhile_cons_of_neg (by simp)]
      rfl
    · rw [List.takeWhile_cons_of_pos (by simpa using hcz)]
      simp only [schemeScan] at h ⊢
      by_cases hc : c = ':'
      · rw [if_pos hc] at h
        cases h
      · rw [if_neg hc] at h ⊢
        by_cases hsc : schemeChar c = true
        · rw [if_pos hsc] at h ⊢
          have hr : schemeScan r = none := by
            rcases hscan : schemeScan r with _ | p
            · rfl
            · rw [hscan] at h
              cases h
          rw [ih hr]
        · rw [if_neg hsc] at h ⊢

theorem splitScheme_fst_nil (l : List Char) (h : (splitScheme l).1 = []) :
    splitScheme l = ([], l) := by
  cases l with
  | nil => rfl
  | cons c r =>
    simp only [splitScheme] at h ⊢
    by_cases ha : c.isAlpha = true
    · rw [if_pos ha] at h ⊢
      rcases hscan : schemeScan r with _ | p
      · rfl
      · rw [hscan] at h
        simp [lowerStr] at h
    · rw [if_neg ha] at h ⊢

theorem schemeScan_snd_mem (l : List Char) (p : List Char × List Char)
    (h : schemeScan l = some p) : ∀ x ∈ p.2, x ∈ l := by
  induction l generalizing p with
  | nil => cases h
  | cons c r ih =>
    simp only [schemeScan] at h
    by_cases hc : c = ':'
    · rw [if_pos hc] at h
      cases h
      intro x hx
      exact List.mem_cons_of_mem c hx
    · rw [if_neg hc] at h
      by_cases hsc : schemeChar c = true
      · rw [if_pos hsc] at h
        rcases hscan : schemeScan r with _ | q
        · rw [hscan] at h
          cases h
        · rw [hscan] at h
          cases h
          intro x hx
          exact List.mem_cons_of_mem c (ih q hscan x hx)
      · rw [if_neg hsc] at h
        cases h


theorem takeWhile_append_all (p : Char → Bool) (a b : List Char)
    (ha : ∀ x ∈ a, p x = true)
    (hb : b = [] ∨ ∃ c cs, b = c :: cs ∧ p c = false) :
    (a ++ b).takeWhile p = a ∧ (a ++ b).dropWhile p = b := by
  induction a with
  | nil =>
    rcases hb with h1 | ⟨c, cs, h1, h2⟩
    · subst h1; exact ⟨rfl, rfl⟩
    · subst h1
      simp [List.takeWhile_cons, List.dropWhile_cons, h2]
  | cons x xs ih =>
    have hx : p x = true := ha x (List.mem_cons_self _ _)
    obtain ⟨ht, hd⟩ := ih fun y hy => ha y (List.mem_cons_of_mem x hy)
    constructor
    · simp [List.takeWhile_cons, hx, ht]
    · simp [List.dropWhile_cons, hx, hd]

theorem splitOnFirst_marker (sep : Char) (a b : List Char) (ha : sep ∉ a) :
    splitOnFirst sep (a ++ sep :: b) = (a, b) := by
  obtain ⟨ht, hd⟩ := takeWhile_middle (fun c => c != sep) a sep b
    (fun x hx => by
      have hxs : x ≠ sep := fun he => ha (he ▸ hx)
      simpa using hxs) (by simp)
  simp only [splitOnFirst, ht, hd, List.tail_cons]

theorem splitOnFirst_absent (sep : Char) (l : List Char) (h : sep ∉ l) :
    splitOnFirst sep l = (l, []) := by
  obtain ⟨ht, hd⟩ := takeWhile_append_all (fun c => c != sep) l []
    (fun x hx => by
      have hxs : x ≠ sep := fun he => h (he ▸ hx)
      simpa using hxs) (Or.inl rfl)
  simp only [List.append_nil] at ht hd
  simp only [splitOnFirst, ht, hd, List.tail_nil]

theorem take2_append_ne (path qf : List Char) (h : path.take 2 ≠ ['/', '/'])
    (hqf : qf = [] ∨ ∃ e es, qf = e :: es ∧ e ≠ '/') :
    (path ++ qf).take 2 ≠ ['/', '/'] := by
  match path with
  | [] =>
    rcases hqf with h1 | ⟨e, es, h1, h2⟩
    · subst h1; rw [List.append_nil]; exact h
    · subst h1
      intro hc
      simp only [List.nil_append] at hc
      rcases es with _ | ⟨f, fs⟩
      · simp at hc
      · simp only [List.take, List.cons.injEq] at hc
        exact h2 hc.1
  | [a] =>
    rcases hqf with h1 | ⟨e, es, h1, h2⟩
    · subst h1; rw [List.append_nil]; exact h
    · subst h1
      intro hc
      simp only [List.cons_append, List.nil_append, List.take, List.cons.injEq] at hc
      exact h2 hc.2.1
  | a :: b :: rest =>
    intro hc
    simp only [List.cons_append, List.take, List.cons.injEq] at hc
    exact h (by simp [List.take, hc.1, hc.2.1])

theorem takeWhile_head (p : Char → Bool) (l : List Char) (c : Char) (t : List Char)
    (h : l.takeWhile p = c :: t) : ∃ t', l = c :: t' := by
  cases l with
  | nil => cases h
  | cons x xs =>
    rw [List.takeWhile_cons] at h
    by_cases hx : p x = true
    · rw [if_pos hx] at h
      exact ⟨xs, by rw [(List.cons.injEq _ _ _ _).mp h |>.1]⟩
    · rw [if_neg hx] at h
      cases h


theorem take1_head (l : List Char) (c : Char) (h : l.take 1 = [c]) :
    ∃ t, l = c :: t := by
  cases l with
  | nil => cases h
  | cons x xs =>
    simp only [List.take, List.cons.injEq] at h
    exact ⟨xs, by rw [h.1]⟩

theorem urlsplit_mk (u0 : List Char) (sp nl fr pq : List Char × List Char)
    (h1 : splitScheme (preprocessUrl u0) = sp)
    (h2 : (if sp.2.take 2 = ['/', '/'] then splitNetloc (sp.2.drop 2)
      else ([], sp.2)) = nl)
    (h3 : splitOnFirst '#' nl.2 = fr)
    (h4 : splitOnFirst '?' fr.1 = pq) :
    urlsplit u0 = ⟨sp.1, nl.1, pq.1, pq.2, fr.2⟩ := by
  subst h1 h2 h3 h4
  rfl

theorem urlunsplit_eq (P : UrlParts) :
    urlunsplit P =
      (if P.scheme ≠ [] then P.scheme ++ [':'] else []) ++
      ((if P.netloc ≠ [] ∨ (P.scheme ≠ [] ∧ usesNetloc.contains P.scheme = true ∧
            P.path.take 2 ≠ ['/', '/'])
        then '/' :: '/' :: (P.netloc ++
          (if P.path ≠ [] ∧ P.path.take 1 ≠ ['/'] then '/' :: P.path else P.path))
        else P.path) ++
      ((if P.query ≠ [] then '?' :: P.query else []) ++
       (if P.fragment ≠ [] then '#' :: P.fragment else []))) := by
  unfold urlunsplit
  by_cases h1 : P.scheme ≠ [] <;> by_cases h2 : P.query ≠ [] <;>
    by_cases h3 : P.fragment ≠ [] <;>
    simp [h1, h2, h3, List.append_assoc]

theorem tail_split (X query fragment : List Char)
    (hx1 : '#' ∉ X) (hx2 : '?' ∉ X) (hq : '#' ∉ query) :
    splitOnFirst '#' (X ++ ((if query ≠ [] then '?' :: query else []) ++
        (if fragment ≠ [] then '#' :: fragment else [])))
      = (X ++ (if query ≠ [] then '?' :: query else []), fragment) ∧
    splitOnFirst '?' (X ++ (if query ≠ [] then '?' :: query else [])) = (X, query) := by
  have hxq : '#' ∉ X ++ (if query ≠ [] then '?' :: query else []) := by
    intro hmem
    rcases List.mem_append.mp hmem with h | h
    · exact hx1 h
    · by_cases hqe : query ≠ []
      · rw [if_pos hqe] at h
        rcases List.mem_cons.mp h with h | h
        · cases h
        · exact hq h
      · rw [if_neg hqe] at h
        cases h
  constructor
  · by_cases hf : fragment ≠ []
    · rw [if_pos hf]
      have hsh : X ++ ((if query ≠ [] then '?' :: query else []) ++ '#' :: fragment)
          = (X ++ (if query ≠ [] then '?' :: query else [])) ++ '#' :: fragment := by
        rw [List.append_assoc]
      rw [hsh]
      exact splitOnFirst_marker '#' _ fragment hxq
    · rw [if_neg hf, List.append_nil]
      rw [splitOnFirst_absent '#' _ hxq]
      rw [not_not.mp hf]
  · by_cases hqe : query ≠ []
    · rw [if_pos hqe]
      exact splitOnFirst_marker '?' X query hx2
    · rw [if_neg hqe, List.append_nil, splitOnFirst_absent '?' X hx2]
      rw [not_not.mp hqe]

theorem splitScheme_marker (c : Char) (cs Y : List Char) (hca : c.isAlpha = true)
    (hcs : ∀ x ∈ cs, schemeChar x = true) (hlow : lowerStr (c :: cs) = c :: cs) :
    splitScheme ((c :: cs) ++ [':'] ++ Y) = (c :: cs, Y) := by
  have hsh : (c :: cs) ++ [':'] ++ Y = c :: (cs ++ ':' :: Y) := by simp
  rw [hsh]
  simp only [splitScheme]
  rw [if_pos hca, schemeScan_append cs Y hcs]
  dsimp only
  rw [hlow]

theorem splitScheme_slash (Y : List Char) : splitScheme ('/' :: Y) = ([], '/' :: Y) := by
  simp only [splitScheme]
  rw [if_neg (by decide)]

theorem splitScheme_none_append (l ext : List Char) (h : splitScheme l = ([], l))
    (hext : ext = [] ∨ ∃ e es, ext = e :: es ∧ schemeChar e = false ∧ e ≠ ':' ∧
      e.isAlpha = false) :
    splitScheme (l ++ ext) = ([], l ++ ext) := by
  cases l with
  | nil =>
    simp only [List.nil_append]
    rcases hext with h1 | ⟨e, es, h1, h2, h3, h4⟩
    · subst h1; rfl
    · subst h1
      simp only [splitScheme]
      rw [if_neg (by simp [h4])]
  | cons c r =>
    simp only [splitScheme, List.cons_append] at h ⊢
    by_cases ha : c.isAlpha = true
    · rw [if_pos ha] at h ⊢
      have hr : schemeScan r = none := by
        rcases hscan : schemeScan r with _ | p
        · rfl
        · rw [hscan] at h
          simp [lowerStr] at h
      rw [schemeScan_none_append r ext hr ?hx]
      case hx =>
        rcases hext with h1 | ⟨e, es, h1, h2, h3, h4⟩
        · exact Or.inl h1
        · exact Or.inr ⟨e, es, h1, h2, h3⟩
    · rw [if_neg ha] at h ⊢


theorem urlsplit_urlunsplit (sch nl pa qu fr : List Char)
    (hpre : preprocessUrl (urlunsplit ⟨sch, nl, pa, qu, fr⟩)
      = urlunsplit ⟨sch, nl, pa, qu, fr⟩)
    (hsch : sch = [] ∨ (∃ c cs, sch = c :: cs ∧ c.isAlpha = true ∧
      (∀ x ∈ cs, schemeChar x = true) ∧ lowerStr sch = sch))
    (hnlc : ∀ x ∈ nl, netlocDelim x = false)
    (hpath1 : '#' ∉ pa) (hpath2 : '?' ∉ pa)
    (hqc : '#' ∉ qu)
    (hrel : nl ≠ [] → pa = [] ∨ pa.take 1 = ['/'])
    (hslash : nl = [] → pa.take 2 ≠ ['/', '/'])
    (hguard2 : nl = [] → sch ≠ [] → usesNetloc.contains sch = true →
      pa = [] ∨ pa.take 1 = ['/'])
    (hns : sch = [] → nl = [] → splitScheme pa = ([], pa)) :
    urlsplit (urlunsplit ⟨sch, nl, pa, qu, fr⟩) = ⟨sch, nl, pa, qu, fr⟩ := by
  have hw := urlunsplit_eq ⟨sch, nl, pa, qu, fr⟩
  dsimp only at hw
  have htail : ((if qu ≠ [] then '?' :: qu else []) ++
      (if fr ≠ [] then '#' :: fr else [])) = [] ∨
      ∃ e es, ((if qu ≠ [] then '?' :: qu else []) ++
        (if fr ≠ [] then '#' :: fr else [])) = e :: es ∧ e ≠ '/' ∧
        schemeChar e = false ∧ e ≠ ':' ∧ e.isAlpha = false ∧ netlocDelim e = true := by
    by_cases hqe : qu ≠ []
    · rw [if_pos hqe]
      exact Or.inr ⟨'?', qu ++ (if fr ≠ [] then '#' :: fr else []), rfl,
        by decide, by decide, by decide, by decide, by decide⟩
    · rw [if_neg hqe, List.nil_append]
      by_cases hfe : fr ≠ []
      · rw [if_pos hfe]
        exact Or.inr ⟨'#', _, rfl, by decide, by decide, by decide, by decide, by decide⟩
      · rw [if_neg hfe]
        exact Or.inl rfl
  by_cases hg : nl ≠ [] ∨ (sch ≠ [] ∧ usesNetloc.contains sch = true ∧
      pa.take 2 ≠ ['/', '/'])
  · -- the `//` marker is emitted
    have hpa_shape : pa = [] ∨ pa.take 1 = ['/'] := by
      rcases hg with hg1 | ⟨hg1, hg2, _⟩
      · exact hrel hg1
      · by_cases hnl2 : nl = []
        · exact hguard2 hnl2 hg1 hg2
        · exact hrel hnl2
    have hfixc : ¬(pa ≠ [] ∧ pa.take 1 ≠ ['/']) := by
      rcases hpa_shape with h | h
      · exact fun hc => hc.1 h
      · exact fun hc => hc.2 h
    rw [if_pos hg, if_neg hfixc] at hw
    simp only [List.cons_append, List.append_assoc] at hw
    -- netloc recovery
    have hb : pa ++ ((if qu ≠ [] then '?' :: qu else []) ++
        (if fr ≠ [] then '#' :: fr else [])) = [] ∨
        ∃ c cs, pa ++ ((if qu ≠ [] then '?' :: qu else []) ++
          (if fr ≠ [] then '#' :: fr else [])) = c :: cs ∧
          (fun c => !netlocDelim c) c = false := by
      rcases hpa_shape with hpa0 | hpa1
      · subst hpa0
        rcases htail with h1 | ⟨e, es, h1, _, _, _, _, h6⟩
        · rw [List.nil_append, h1]
          exact Or.inl rfl
        · rw [List.nil_append, h1]
          exact Or.inr ⟨e, es, rfl, by simp [h6]⟩
      · obtain ⟨pt, hpt⟩ := take1_head pa '/' hpa1
        subst hpt
        exact Or.inr ⟨'/', pt ++ ((if qu ≠ [] then '?' :: qu else []) ++
          (if fr ≠ [] then '#' :: fr else [])), rfl, by decide⟩
    have hnlsplit := takeWhile_append_all (fun c => !netlocDelim c) nl
      (pa ++ ((if qu ≠ [] then '?' :: qu else []) ++
        (if fr ≠ [] then '#' :: fr else [])))
      (fun x hx => by simp [hnlc x hx]) hb
    have hts := tail_split pa qu fr hpath1 hpath2 hqc
    -- scheme cases
    rcases hsch with hs0 | ⟨c, cs, hcons, hca, hcs, hlow⟩
    · subst hs0
      rw [if_neg (by simp)] at hw
      rw [List.nil_append] at hw
      refine urlsplit_mk _ ([], '/' :: '/' :: (nl ++ (pa ++
          ((if qu ≠ [] then '?' :: qu else []) ++
            (if fr ≠ [] then '#' :: fr else [])))))
        (nl, pa ++ ((if qu ≠ [] then '?' :: qu else []) ++
          (if fr ≠ [] then '#' :: fr else [])))
        (pa ++ (if qu ≠ [] then '?' :: qu else []), fr) (pa, qu) ?_ ?_ ?_ ?_
      · rw [hpre, hw]
        exact splitScheme_slash _
      · have hc2 : List.take 2 ('/' :: '/' :: (nl ++ (pa ++
            ((if qu ≠ [] then '?' :: qu else []) ++
              (if fr ≠ [] then '#' :: fr else []))))) = ['/', '/'] := rfl
        have hd2 : List.drop 2 ('/' :: '/' :: (nl ++ (pa ++
            ((if qu ≠ [] then '?' :: qu else []) ++
              (if fr ≠ [] then '#' :: fr else []))))) = nl ++ (pa ++
            ((if qu ≠ [] then '?' :: qu else []) ++
              (if fr ≠ [] then '#' :: fr else []))) := rfl
        rw [if_pos hc2, hd2]
        simp only [splitNetloc]
        rw [hnlsplit.1, hnlsplit.2]
      · exact hts.1
      · exact hts.2
    · subst hcons
      rw [if_pos (by simp)] at hw
      simp only [List.cons_append, List.append_assoc] at hw
      refine urlsplit_mk _ (c :: cs, '/' :: '/' :: (nl ++ (pa ++
          ((if qu ≠ [] then '?' :: qu else []) ++
            (if fr ≠ [] then '#' :: fr else [])))))
        (nl, pa ++ ((if qu ≠ [] then '?' :: qu else []) ++
          (if fr ≠ [] then '#' :: fr else [])))
        (pa ++ (if qu ≠ [] then '?' :: qu else []), fr) (pa, qu) ?_ ?_ ?_ ?_
      · rw [hpre, hw]
        have := splitScheme_marker c cs ('/' :: '/' :: (nl ++ (pa ++
          ((if qu ≠ [] then '?' :: qu else []) ++
            (if fr ≠ [] then '#' :: fr else []))))) hca hcs hlow
        simpa [List.cons_append, List.append_assoc] using this
      · have hc2 : List.take 2 ('/' :: '/' :: (nl ++ (pa ++
            ((if qu ≠ [] then '?' :: qu else []) ++
              (if fr ≠ [] then '#' :: fr else []))))) = ['/', '/'] := rfl
        have hd2 : List.drop 2 ('/' :: '/' :: (nl ++ (pa ++
            ((if qu ≠ [] then '?' :: qu else []) ++
              (if fr ≠ [] then '#' :: fr else []))))) = nl ++ (pa ++
            ((if qu ≠ [] then '?' :: qu else []) ++
              (if fr ≠ [] then '#' :: fr else []))) := rfl
        rw [if_pos hc2, hd2]
        simp only [splitNetloc]
        rw [hnlsplit.1, hnlsplit.2]
      · exact hts.1
      · exact hts.2
  · -- no `//` marker
    have hg' := hg
    push_neg at hg'
    obtain ⟨hnl0, _⟩ := hg'
    subst hnl0
    have ht2 : pa.take 2 ≠ ['/', '/'] := hslash rfl
    have hbig2 : (pa ++ ((if qu ≠ [] then '?' :: qu else []) ++
        (if fr ≠ [] then '#' :: fr else []))).take 2 ≠ ['/', '/'] := by
      refine take2_append_ne pa _ ht2 ?_
      rcases htail with h1 | ⟨e, es, h1, h2, _, _, _, _⟩
      · exact Or.inl h1
      · exact Or.inr ⟨e, es, h1, h2⟩
    have hts := tail_split pa qu fr hpath1 hpath2 hqc
    rw [if_neg hg] at hw
    rcases hsch with hs0 | ⟨c, cs, hcons, hca, hcs, hlow⟩
    · subst hs0
      rw [if_neg (by simp), List.nil_append] at hw
      have hsp : splitScheme (pa ++ ((if qu ≠ [] then '?' :: qu else []) ++
          (if fr ≠ [] then '#' :: fr else [])))
          = ([], pa ++ ((if qu ≠ [] then '?' :: qu else []) ++
            (if fr ≠ [] then '#' :: fr else []))) := by
        refine splitScheme_none_append pa _ (hns rfl rfl) ?_
        rcases htail with h1 | ⟨e, es, h1, _, h3, h4, h5, _⟩
        · exact Or.inl h1
        · exact Or.inr ⟨e, es, h1, h3, h4, h5⟩
      refine urlsplit_mk _ ([], pa ++ ((if qu ≠ [] then '?' :: qu else []) ++
          (if fr ≠ [] then '#' :: fr else [])))
        ([], pa ++ ((if qu ≠ [] then '?' :: qu else []) ++
          (if fr ≠ [] then '#' :: fr else [])))
        (pa ++ (if qu ≠ [] then '?' :: qu else []), fr) (pa, qu) ?_ ?_ ?_ ?_
      · rw [hpre, hw]
        exact hsp
      · rw [if_neg hbig2]
      · exact hts.1
      · exact hts.2
    · subst hcons
      rw [if_pos (by simp)] at hw
      simp only [List.cons_append, List.append_assoc] at hw
      refine urlsplit_mk _ (c :: cs, pa ++ ((if qu ≠ [] then '?' :: qu else []) ++
          (if fr ≠ [] then '#' :: fr else [])))
        ([], pa ++ ((if qu ≠ [] then '?' :: qu else []) ++
          (if fr ≠ [] then '#' :: fr else [])))
        (pa ++ (if qu ≠ [] then '?' :: qu else []), fr) (pa, qu) ?_ ?_ ?_ ?_
      · rw [hpre, hw]
        have := splitScheme_marker c cs (pa ++ ((if qu ≠ [] then '?' :: qu else []) ++
          (if fr ≠ [] then '#' :: fr else []))) hca hcs hlow
        simpa [List.cons_append, List.append_assoc] using this
      · rw [if_neg hbig2]
      · exact hts.1
      · exact hts.2


theorem schemeScan_fst_chars (l : List Char) (p : List Char × List Char)
    (h : schemeScan l = some p) : ∀ x ∈ p.1, schemeChar x = true := by
  induction l generalizing p with
  | nil => cases h
  | cons c r ih =>
    simp only [schemeScan] at h
    by_cases hc : c = ':'
    · rw [if_pos hc] at h
      cases h
      intro x hx
      cases hx
    · rw [if_neg hc] at h
      by_cases hsc : schemeChar c = true
      · rw [if_pos hsc] at h
        rcases hscan : schemeScan r with _ | q
        · rw [hscan] at h
          cases h
        · rw [hscan] at h
          cases h
          intro x hx
          rcases List.mem_cons.mp hx with hx | hx
          · rw [hx]; exact hsc
          · exact ih q hscan x hx
      · rw [if_neg hsc] at h
        cases h

theorem splitScheme_shape (l : List Char) :
    (splitScheme l).1 = [] ∨ ∃ c cs, (splitScheme l).1 = c :: cs ∧
      c.isAlpha = true ∧ (∀ x ∈ cs, schemeChar x = true) ∧
      lowerStr (splitScheme l).1 = (splitScheme l).1 := by
  cases l with
  | nil => exact Or.inl rfl
  | cons c r =>
    simp only [splitScheme]
    by_cases ha : c.isAlpha = true
    · rw [if_pos ha]
      rcases hscan : schemeScan r with _ | p
      · exact Or.inl rfl
      · right
        refine ⟨lowerChar c, lowerStr p.1, rfl, lowerChar_isAlpha c ha, ?_, ?_⟩
        · intro x hx
          rcases List.mem_map.mp hx with ⟨y, hy, rfl⟩
          exact lowerChar_schemeChar y (schemeScan_fst_chars r p hscan y hy)
        · show lowerStr (lowerStr (c :: p.1)) = lowerStr (c :: p.1)
          exact lowerStr_idem _
    · rw [if_neg ha]
      exact Or.inl rfl

theorem splitScheme_snd_mem (l : List Char) :
    ∀ x ∈ (splitScheme l).2, x ∈ l := by
  cases l with
  | nil => intro x hx; exact hx
  | cons c r =>
    simp only [splitScheme]
    by_cases ha : c.isAlpha = true
    · rw [if_pos ha]
      rcases hscan : schemeScan r with _ | p
      · intro x hx; exact hx
      · intro x hx
        exact List.mem_cons_of_mem c (schemeScan_snd_mem r p hscan x hx)
    · rw [if_neg ha]
      intro x hx; exact hx


theorem urlsplit_netloc_chars (u0 : List Char) :
    ∀ x ∈ (urlsplit u0).netloc, netlocDelim x = false := by
  intro x hx
  simp only [urlsplit] at hx
  by_cases hc : (splitScheme (preprocessUrl u0)).2.take 2 = ['/', '/']
  · rw [if_pos hc] at hx
    simp only [splitNetloc] at hx
    have := List.mem_takeWhile_imp hx
    simpa using this
  · rw [if_neg hc] at hx
    cases hx

theorem urlsplit_path_no_q (u0 : List Char) : '?' ∉ (urlsplit u0).path := by
  intro hx
  simp only [urlsplit] at hx
  simp only [splitOnFirst] at hx
  have := List.mem_takeWhile_imp hx
  simp at this

theorem urlsplit_path_no_hash (u0 : List Char) : '#' ∉ (urlsplit u0).path := by
  intro hx
  simp only [urlsplit] at hx
  simp only [splitOnFirst] at hx
  have h1 := (List.takeWhile_sublist _).mem hx
  have := List.mem_takeWhile_imp h1
  simp at this

theorem urlsplit_query_no_hash (u0 : List Char) : '#' ∉ (urlsplit u0).query := by
  intro hx
  simp only [urlsplit] at hx
  simp only [splitOnFirst] at hx
  have h1 := List.mem_of_mem_tail hx
  have h2 := (List.dropWhile_sublist _).mem h1
  have := List.mem_takeWhile_imp h2
  simp at this

theorem path_after_delim (l : List Char)
    (hshape : l = [] ∨ ∃ d r, l = d :: r ∧ netlocDelim d = true) :
    (splitOnFirst '?' (splitOnFirst '#' l).1).1 = [] ∨
      (splitOnFirst '?' (splitOnFirst '#' l).1).1.take 1 = ['/'] := by
  rcases hshape with h | ⟨d, r, hdr, hd⟩
  · subst h
    exact Or.inl rfl
  · subst hdr
    have hd' : d = '/' ∨ d = '?' ∨ d = '#' := by
      simp only [netlocDelim, Bool.or_eq_true, beq_iff_eq] at hd
      tauto
    rcases hd' with h | h | h
    · subst h
      right
      simp only [splitOnFirst]
      rw [List.takeWhile_cons_of_pos (by decide), List.takeWhile_cons_of_pos (by decide)]
      rfl
    · subst h
      left
      simp only [splitOnFirst]
      rw [List.takeWhile_cons_of_pos (by decide)]
      rw [List.takeWhile_cons_of_neg (by decide)]
    · subst h
      left
      simp only [splitOnFirst]
      rw [List.takeWhile_cons_of_neg (by decide)]
      rfl

theorem urlsplit_rel (u0 : List Char) : (urlsplit u0).netloc ≠ [] →
    (urlsplit u0).path = [] ∨ (urlsplit u0).path.take 1 = ['/'] := by
  intro hnl
  simp only [urlsplit] at hnl ⊢
  by_cases hc : (splitScheme (preprocessUrl u0)).2.take 2 = ['/', '/']
  · rw [if_pos hc] at hnl ⊢
    apply path_after_delim
    rcases hd : (splitNetloc ((splitScheme (preprocessUrl u0)).2.drop 2)).2
      with _ | ⟨d, r⟩
    · exact Or.inl rfl
    · right
      refine ⟨d, r, rfl, ?_⟩
      simp only [splitNetloc] at hd
      have := dropWhile_head_not _ _ _ _ hd
      simpa using this
  · rw [if_neg hc] at hnl
    exact absurd rfl hnl


theorem splitScheme_takeWhile_pq (l : List Char) (h : splitScheme l = ([], l)) :
    splitScheme ((l.takeWhile (fun c => c != '#')).takeWhile (fun c => c != '?'))
      = ([], (l.takeWhile (fun c => c != '#')).takeWhile (fun c => c != '?')) := by
  cases l with
  | nil => rfl
  | cons c r =>
    by_cases h3 : c = '#'
    · subst h3
      rw [List.takeWhile_cons_of_neg (by decide)]
      rfl
    · rw [List.takeWhile_cons_of_pos (by simpa using h3)]
      by_cases h4 : c = '?'
      · subst h4
        rw [List.takeWhile_cons_of_neg (by decide)]
        rfl
      · rw [List.takeWhile_cons_of_pos (by simpa using h4)]
        simp only [splitScheme] at h ⊢
        by_cases ha : c.isAlpha = true
        · rw [if_pos ha] at h ⊢
          have hr : schemeScan r = none := by
            rcases hscan : schemeScan r with _ | p
            · rfl
            · rw [hscan] at h
              simp [lowerStr] at h
          have h1 : schemeScan (r.takeWhile (fun c => c != '#')) = none :=
            schemeScan_none_takeWhile r '#' (by decide) (by decide) hr
          have h2 : schemeScan ((r.takeWhile (fun c => c != '#')).takeWhile
              (fun c => c != '?')) = none :=
            schemeScan_none_takeWhile _ '?' (by decide) (by decide) h1
          rw [h2]
        · rw [if_neg ha] at h ⊢

theorem unsafeByte_c0 (c : Char) (h : unsafeUrlByte c = true) : c0OrSpace c = true := by
  have h3 : c = '\t' ∨ c = '\x0d' ∨ c = '\n' := by
    simpa [unsafeUrlByte, or_assoc] using h
  rcases h3 with h3 | h3 | h3 <;> subst h3 <;> decide

theorem preprocessUrl_head (u0 : List Char) :
    preprocessUrl u0 = [] ∨
      ∃ c cs, preprocessUrl u0 = c :: cs ∧ c0OrSpace c = false := by
  unfold preprocessUrl
  rcases hd : u0.dropWhile c0OrSpace with _ | ⟨c, cs⟩
  · left
    rfl
  · have hc : c0OrSpace c = false := dropWhile_head_not _ _ _ _ hd
    have hcu : unsafeUrlByte c = false := by
      rcases hb : unsafeUrlByte c with _ | _
      · rfl
      · rw [unsafeByte_c0 c hb] at hc
        cases hc
    right
    exact ⟨c, cs.filter (fun c => !unsafeUrlByte c), by simp [List.filter_cons, hcu], hc⟩

theorem preprocessUrl_filtered (u0 : List Char) :
    ∀ x ∈ preprocessUrl u0, unsafeUrlByte x = false := by
  intro x hx
  unfold preprocessUrl at hx
  have := List.of_mem_filter hx
  simpa using this

theorem preprocessUrl_noop (l : List Char)
    (h1 : ∀ c ∈ l, unsafeUrlByte c = false)
    (h2 : l = [] ∨ ∃ c cs, l = c :: cs ∧ c0OrSpace c = false) :
    preprocessUrl l = l := by
  unfold preprocessUrl
  have hd : l.dropWhile c0OrSpace = l := by
    rcases h2 with h | ⟨c, cs, hc, hc0⟩
    · subst h
      rfl
    · subst hc
      rw [List.dropWhile_cons_of_neg (by simp [hc0])]
  rw [hd]
  refine List.filter_eq_self.mpr fun a ha => ?_
  simp [h1 a ha]

theorem urlsplit_ns (u0 : List Char) : (urlsplit u0).scheme = [] →
    (urlsplit u0).netloc = [] →
    splitScheme (urlsplit u0).path = ([], (urlsplit u0).path) := by
  intro hs hn
  simp only [urlsplit] at hs hn ⊢
  by_cases hc : (splitScheme (preprocessUrl u0)).2.take 2 = ['/', '/']
  · rw [if_pos hc] at hn ⊢
    have hshape : (splitNetloc ((splitScheme (preprocessUrl u0)).2.drop 2)).2 = [] ∨
        ∃ d r, (splitNetloc ((splitScheme (preprocessUrl u0)).2.drop 2)).2 = d :: r ∧
          netlocDelim d = true := by
      rcases hd : (splitNetloc ((splitScheme (preprocessUrl u0)).2.drop 2)).2
        with _ | ⟨d, r⟩
      · exact Or.inl rfl
      · right
        refine ⟨d, r, rfl, ?_⟩
        simp only [splitNetloc] at hd
        have := dropWhile_head_not _ _ _ _ hd
        simpa using this
    rcases path_after_delim _ hshape with h | h
    · rw [h]
      rfl
    · obtain ⟨t, ht⟩ := take1_head _ '/' h
      rw [ht]
      exact splitScheme_slash t
  · rw [if_neg hc]
    have hsp := splitScheme_fst_nil _ hs
    rw [hsp]
    simp only [splitOnFirst]
    exact splitScheme_takeWhile_pq _ (by rw [hsp])

theorem urlsplit_path_head (u0 : List Char) : (urlsplit u0).scheme = [] →
    ((urlsplit u0).path = [] ∨
      ∃ c cs, (urlsplit u0).path = c :: cs ∧ c0OrSpace c = false) := by
  intro hs
  simp only [urlsplit] at hs ⊢
  by_cases hc : (splitScheme (preprocessUrl u0)).2.take 2 = ['/', '/']
  · rw [if_pos hc]
    have hshape : (splitNetloc ((splitScheme (preprocessUrl u0)).2.drop 2)).2 = [] ∨
        ∃ d r, (splitNetloc ((splitScheme (preprocessUrl u0)).2.drop 2)).2 = d :: r ∧
          netlocDelim d = true := by
      rcases hd : (splitNetloc ((splitScheme (preprocessUrl u0)).2.drop 2)).2
        with _ | ⟨d, r⟩
      · exact Or.inl rfl
      · right
        refine ⟨d, r, rfl, ?_⟩
        simp only [splitNetloc] at hd
        have := dropWhile_head_not _ _ _ _ hd
        simpa using this
    rcases path_after_delim _ hshape with h | h
    · exact Or.inl h
    · obtain ⟨t, ht⟩ := take1_head _ '/' h
      exact Or.inr ⟨'/', t, ht, by decide⟩
  · rw [if_neg hc]
    have hsp := splitScheme_fst_nil _ hs
    rw [hsp]
    simp only [splitOnFirst]
    rcases hph : ((preprocessUrl u0).takeWhile (fun c => c != '#')).takeWhile
        (fun c => c != '?') with _ | ⟨c, cs⟩
    · exact Or.inl rfl
    · right
      obtain ⟨t1, ht1⟩ := takeWhile_head _ _ _ _ hph
      obtain ⟨t2, ht2⟩ := takeWhile_head _ _ _ _ ht1
      rcases preprocessUrl_head u0 with h | ⟨c', cs', hc', hc0⟩
      · rw [h] at ht2
        cases ht2
      · rw [hc'] at ht2
        refine ⟨c, cs, rfl, ?_⟩
        have hcc : c = c' := ((List.cons.injEq _ _ _ _).mp ht2.symm).1
        rw [hcc]
        exact hc0

theorem urlsplit_netloc_mem (u0 : List Char) :
    ∀ x ∈ (urlsplit u0).netloc, x ∈ preprocessUrl u0 := by
  intro x hx
  simp only [urlsplit] at hx
  by_cases hc : (splitScheme (preprocessUrl u0)).2.take 2 = ['/', '/']
  · rw [if_pos hc] at hx
    simp only [splitNetloc] at hx
    have h1 := (List.takeWhile_sublist _).mem hx
    have h2 := List.mem_of_mem_drop h1
    exact splitScheme_snd_mem _ x h2
  · rw [if_neg hc] at hx
    cases hx

theorem urlsplit_path_mem (u0 : List Char) :
    ∀ x ∈ (urlsplit u0).path, x ∈ preprocessUrl u0 := by
  intro x hx
  simp only [urlsplit, splitOnFirst] at hx
  have h1 := (List.takeWhile_sublist _).mem hx
  have h2 := (List.takeWhile_sublist _).mem h1
  by_cases hc : (splitScheme (preprocessUrl u0)).2.take 2 = ['/', '/']
  · rw [if_pos hc] at h2
    simp only [splitNetloc] at h2
    have h3 := (List.dropWhile_sublist _).mem h2
    have h4 := List.mem_of_mem_drop h3
    exact splitScheme_snd_mem _ x h4
  · rw [if_neg hc] at h2
    exact splitScheme_snd_mem _ x h2

theorem urlsplit_fragment_mem (u0 : List Char) :
    ∀ x ∈ (urlsplit u0).fragment, x ∈ preprocessUrl u0 := by
  intro x hx
  simp only [urlsplit, splitOnFirst] at hx
  have h1 := List.mem_of_mem_tail hx
  have h2 := (List.dropWhile_sublist _).mem h1
  by_cases hc : (splitScheme (preprocessUrl u0)).2.take 2 = ['/', '/']
  · rw [if_pos hc] at h2
    simp only [splitNetloc] at h2
    have h3 := (List.dropWhile_sublist _).mem h2
    have h4 := List.mem_of_mem_drop h3
    exact splitScheme_snd_mem _ x h4
  · rw [if_neg hc] at h2
    exact splitScheme_snd_mem _ x h2


theorem chunk_mem (k v : List Char) (c : Char)
    (hc : c ∈ quote_plus k ++ '=' :: quote_plus v) :
    urlSafeChar c = true ∨
      c ∈ ['+', '%', '&', '=', '0','1','2','3','4','5','6','7','8','9',
        'A','B','C','D','E','F'] := by
  have hsmall : ∀ y : Char,
      y ∈ ['+', '%', '0','1','2','3','4','5','6','7','8','9',
        'A','B','C','D','E','F'] →
      y ∈ ['+', '%', '&', '=', '0','1','2','3','4','5','6','7','8','9',
        'A','B','C','D','E','F'] := by decide
  rcases List.mem_append.mp hc with h | h
  · rcases quote_plus_mem k c h with h | h
    · exact Or.inl h
    · exact Or.inr (hsmall c h)
  · rcases List.mem_cons.mp h with h | h
    · subst h
      right
      decide
    · rcases quote_plus_mem v c h with h | h
      · exact Or.inl h
      · exact Or.inr (hsmall c h)

theorem urlencode_mem (l : List (List Char × List Char)) (c : Char)
    (hc : c ∈ urlencode l) :
    urlSafeChar c = true ∨
      c ∈ ['+', '%', '&', '=', '0','1','2','3','4','5','6','7','8','9',
        'A','B','C','D','E','F'] := by
  induction l with
  | nil => cases hc
  | cons kv rest ih =>
    unfold urlencode at hc ih
    cases rest with
    | nil =>
      rw [List.map_cons, List.map_nil, intercalate_singleton_eq] at hc
      exact chunk_mem kv.1 kv.2 c hc
    | cons kv2 rest2 =>
      rw [List.map_cons, List.map_cons, intercalate_cons_cons_eq] at hc
      rcases List.mem_append.mp hc with h | h
      · rcases List.mem_append.mp h with h | h
        · exact chunk_mem kv.1 kv.2 c h
        · right
          have h' : c = '&' := by simpa using h
          subst h'
          decide
      · rw [List.map_cons] at ih
        exact ih h

theorem urlencode_not_mem (l : List (List Char × List Char)) (z : Char)
    (h1 : urlSafeChar z = false)
    (h2 : z ∉ ['+', '%', '&', '=', '0','1','2','3','4','5','6','7','8','9',
      'A','B','C','D','E','F']) :
    z ∉ urlencode l := by
  intro hz
  rcases urlencode_mem l z hz with h | h
  · rw [h1] at h
    cases h
  · exact h2 h

theorem alphanum_code (c : Char) (h : c.isAlphanum = true) : 32 < c.toNat := by
  have h2 : c.isAlpha = true ∨ c.isDigit = true := by
    simpa [Char.isAlphanum, Bool.or_eq_true] using h
  rcases h2 with h2 | h2
  · rcases (char_isAlpha_iff c).mp h2 with h3 | h3 <;> omega
  · have h3 := (char_isDigit_iff c).mp h2
    omega

theorem schemeChar_code (c : Char) (h : schemeChar c = true) : 32 < c.toNat := by
  simp only [schemeChar, Bool.or_eq_true, beq_iff_eq] at h
  rcases h with ((h | h) | h) | h
  · exact alphanum_code c h
  · subst h; decide
  · subst h; decide
  · subst h; decide

theorem urlSafeChar_code (c : Char) (h : urlSafeChar c = true) : 32 < c.toNat := by
  simp only [urlSafeChar, Bool.or_eq_true, beq_iff_eq] at h
  rcases h with (((h | h) | h) | h) | h
  · exact alphanum_code c h
  · subst h; decide
  · subst h; decide
  · subst h; decide
  · subst h; decide

theorem not_unsafe_of_code (c : Char) (h : 32 < c.toNat) : unsafeUrlByte c = false := by
  rcases hb : unsafeUrlByte c with _ | _
  · rfl
  · have hc0 := unsafeByte_c0 c hb
    simp [c0OrSpace] at hc0
    omega

theorem not_c0_of_code (c : Char) (h : 32 < c.toNat) : c0OrSpace c = false := by
  simp [c0OrSpace]
  omega

theorem urlencode_code (l : List (List Char × List Char)) :
    ∀ x ∈ urlencode l, 32 < x.toNat := by
  intro x hx
  rcases urlencode_mem l x hx with h | h
  · exact urlSafeChar_code x h
  · have hbig : ∀ y : Char,
        y ∈ ['+', '%', '&', '=', '0','1','2','3','4','5','6','7','8','9',
          'A','B','C','D','E','F'] → 32 < y.toNat := by decide
    exact hbig x h


theorem preprocess_noop_parts (sch nl pa qu fr : List Char)
    (hs : sch = [] ∨ ∃ c cs, sch = c :: cs ∧ c.isAlpha = true ∧
      (∀ x ∈ cs, schemeChar x = true))
    (hnlu : ∀ x ∈ nl, unsafeUrlByte x = false)
    (hpau : ∀ x ∈ pa, unsafeUrlByte x = false)
    (hpah : sch = [] → nl = [] →
      (pa = [] ∨ ∃ c cs, pa = c :: cs ∧ c0OrSpace c = false))
    (hquu : ∀ x ∈ qu, unsafeUrlByte x = false)
    (hfru : ∀ x ∈ fr, unsafeUrlByte x = false) :
    preprocessUrl (urlunsplit ⟨sch, nl, pa, qu, fr⟩)
      = urlunsplit ⟨sch, nl, pa, qu, fr⟩ := by
  have hw := urlunsplit_eq ⟨sch, nl, pa, qu, fr⟩
  dsimp only at hw
  apply preprocessUrl_noop
  · intro x hx
    rw [hw] at hx
    rcases List.mem_append.mp hx with h | h
    · by_cases hse : sch ≠ []
      · rw [if_pos hse] at h
        rcases List.mem_append.mp h with h | h
        · rcases hs with h0 | ⟨c, cs, hcons, hca, hcs⟩
          · exact absurd h0 hse
          · subst hcons
            rcases List.mem_cons.mp h with h | h
            · subst h
              refine not_unsafe_of_code x ?_
              rcases (char_isAlpha_iff x).mp hca with h2 | h2 <;> omega
            · exact not_unsafe_of_code x (schemeChar_code x (hcs x h))
        · have h' : x = ':' := by simpa using h
          subst h'
          decide
      · rw [if_neg hse] at h
        cases h
    · rcases List.mem_append.mp h with h | h
      · by_cases hg : nl ≠ [] ∨ (sch ≠ [] ∧ usesNetloc.contains sch = true ∧
            pa.take 2 ≠ ['/', '/'])
        · rw [if_pos hg] at h
          rcases List.mem_cons.mp h with h | h
          · subst h; decide
          rcases List.mem_cons.mp h with h | h
          · subst h; decide
          rcases List.mem_append.mp h with h | h
          · exact hnlu x h
          · by_cases hfx : pa ≠ [] ∧ pa.take 1 ≠ ['/']
            · rw [if_pos hfx] at h
              rcases List.mem_cons.mp h with h | h
              · subst h; decide
              · exact hpau x h
            · rw [if_neg hfx] at h
              exact hpau x h
        · rw [if_neg hg] at h
          exact hpau x h
      · rcases List.mem_append.mp h with h | h
        · by_cases hqe : qu ≠ []
          · rw [if_pos hqe] at h
            rcases List.mem_cons.mp h with h | h
            · subst h; decide
            · exact hquu x h
          · rw [if_neg hqe] at h
            cases h
        · by_cases hfe : fr ≠ []
          · rw [if_pos hfe] at h
            rcases List.mem_cons.mp h with h | h
            · subst h; decide
            · exact hfru x h
          · rw [if_neg hfe] at h
            cases h
  · rw [hw]
    by_cases hse : sch ≠ []
    · rcases hs with h0 | ⟨c, cs, hcons, hca, hcs⟩
      · exact absurd h0 hse
      · subst hcons
        rw [if_pos hse]
        right
        refine ⟨c, _, rfl, ?_⟩
        refine not_c0_of_code c ?_
        rcases (char_isAlpha_iff c).mp hca with h2 | h2 <;> omega
    · have hs0 : sch = [] := not_not.mp hse
      subst hs0
      rw [if_neg (by simp)]
      by_cases hg : nl ≠ [] ∨ (([] : List Char) ≠ [] ∧
          usesNetloc.contains ([] : List Char) = true ∧ pa.take 2 ≠ ['/', '/'])
      · rw [if_pos hg]
        exact Or.inr ⟨'/', _, rfl, by decide⟩
      · rw [if_neg hg]
        have hnl0 : nl = [] := by
          by_cases h : nl = []
          · exact h
          · exact absurd (Or.inl h) hg
        rcases hpah rfl hnl0 with h | ⟨c, cs, hcc, hc0⟩
        · subst h
          by_cases hqe : qu ≠ []
          · rw [if_pos hqe]
            exact Or.inr ⟨'?', _, rfl, by decide⟩
          · rw [if_neg hqe]
            by_cases hfe : fr ≠ []
            · rw [if_pos hfe]
              exact Or.inr ⟨'#', _, rfl, by decide⟩
            · rw [if_neg hfe]
              exact Or.inl rfl
        · rw [hcc]
          exact Or.inr ⟨c, _, rfl, hc0⟩


theorem urlsplit_scheme_shape (u0 : List Char) :
    (urlsplit u0).scheme = [] ∨ ∃ c cs, (urlsplit u0).scheme = c :: cs ∧
      c.isAlpha = true ∧ (∀ x ∈ cs, schemeChar x = true) ∧
      lowerStr (urlsplit u0).scheme = (urlsplit u0).scheme :=
  splitScheme_shape (preprocessUrl u0)

theorem clean_url_ne_empty (w : String) (hw : w ≠ "") :
    clean_url w = ⟨urlunsplit ⟨(urlsplit w.data).scheme, (urlsplit w.data).netloc,
      (urlsplit w.data).path,
      urlencode ((parse_qsl (urlsplit w.data).query).filter
        fun kv => !isTrackingKey kv.1),
      (urlsplit w.data).fragment⟩⟩ := by
  simp only [clean_url]
  rw [if_neg hw]

/-- C5 (amended): on a well-formed URL (one whose parse does not hit the
CPython `urlunsplit` asymmetries: either a nonempty netloc, or a path that
does not begin with `//` and that is absolute whenever the scheme is a
`uses_netloc` scheme), `_clean_url` keeps scheme, netloc, path and fragment
unchanged, its query parses back to exactly the original parameters minus the
tracking keys (order preserved), and it is idempotent. -/
theorem clean_url_canonicalize (u : String) (h : WellFormedUrl u) :
    urlsplit (clean_url u).data
      = ⟨(urlsplit u.data).scheme, (urlsplit u.data).netloc, (urlsplit u.data).path,
          urlencode ((parse_qsl (urlsplit u.data).query).filter
            fun kv => !isTrackingKey kv.1),
          (urlsplit u.data).fragment⟩ ∧
    parse_qsl (urlsplit (clean_url u).data).query
      = (parse_qsl (urlsplit u.data).query).filter (fun kv => !isTrackingKey kv.1) ∧
    clean_url (clean_url u) = clean_url u := by
  by_cases hu : u = ""
  · subst hu
    exact ⟨by decide, by decide, by decide⟩
  · have hcw := clean_url_ne_empty u hu
    have hdata : (clean_url u).data = urlunsplit ⟨(urlsplit u.data).scheme,
        (urlsplit u.data).netloc, (urlsplit u.data).path,
        urlencode ((parse_qsl (urlsplit u.data).query).filter
          fun kv => !isTrackingKey kv.1),
        (urlsplit u.data).fragment⟩ := by
      rw [hcw]
    have hpre : preprocessUrl (urlunsplit ⟨(urlsplit u.data).scheme,
        (urlsplit u.data).netloc, (urlsplit u.data).path,
        urlencode ((parse_qsl (urlsplit u.data).query).filter
          fun kv => !isTrackingKey kv.1),
        (urlsplit u.data).fragment⟩)
        = urlunsplit ⟨(urlsplit u.data).scheme,
        (urlsplit u.data).netloc, (urlsplit u.data).path,
        urlencode ((parse_qsl (urlsplit u.data).query).filter
          fun kv => !isTrackingKey kv.1),
        (urlsplit u.data).fragment⟩ := by
      refine preprocess_noop_parts _ _ _ _ _ ?_ ?_ ?_ ?_ ?_ ?_
      · rcases urlsplit_scheme_shape u.data with h0 | ⟨c, cs, h1, h2, h3, _⟩
        · exact Or.inl h0
        · exact Or.inr ⟨c, cs, h1, h2, h3⟩
      · exact fun x hx =>
          preprocessUrl_filtered u.data x (urlsplit_netloc_mem u.data x hx)
      · exact fun x hx =>
          preprocessUrl_filtered u.data x (urlsplit_path_mem u.data x hx)
      · exact fun hs _ => urlsplit_path_head u.data hs
      · exact fun x hx => not_unsafe_of_code x (urlencode_code _ x hx)
      · exact fun x hx =>
          preprocessUrl_filtered u.data x (urlsplit_fragment_mem u.data x hx)
    have hslash : (urlsplit u.data).netloc = [] →
        (urlsplit u.data).path.take 2 ≠ ['/', '/'] := by
      intro hnl0
      rcases h with h | ⟨h1, _⟩
      · exact absurd hnl0 h
      · exact h1
    have hguard2 : (urlsplit u.data).netloc = [] → (urlsplit u.data).scheme ≠ [] →
        usesNetloc.contains (urlsplit u.data).scheme = true →
        (urlsplit u.data).path = [] ∨ (urlsplit u.data).path.take 1 = ['/'] := by
      intro hnl0 hs hc
      rcases h with h | ⟨_, h2⟩
      · exact absurd hnl0 h
      · exact h2 hs hc
    have hsplit := urlsplit_urlunsplit (urlsplit u.data).scheme
      (urlsplit u.data).netloc (urlsplit u.data).path
      (urlencode ((parse_qsl (urlsplit u.data).query).filter
        fun kv => !isTrackingKey kv.1))
      (urlsplit u.data).fragment
      hpre
      (urlsplit_scheme_shape u.data)
      (urlsplit_netloc_chars u.data)
      (urlsplit_path_no_hash u.data)
      (urlsplit_path_no_q u.data)
      (urlencode_not_mem _ '#' (by decide) (by decide))
      (urlsplit_rel u.data)
      hslash
      hguard2
      (urlsplit_ns u.data)
    have hc1 : urlsplit (clean_url u).data
        = ⟨(urlsplit u.data).scheme, (urlsplit u.data).netloc, (urlsplit u.data).path,
            urlencode ((parse_qsl (urlsplit u.data).query).filter
              fun kv => !isTrackingKey kv.1),
            (urlsplit u.data).fragment⟩ := by
      rw [hdata]
      exact hsplit
    have hc2 : parse_qsl (urlsplit (clean_url u).data).query
        = (parse_qsl (urlsplit u.data).query).filter
            (fun kv => !isTrackingKey kv.1) := by
      rw [hc1]
      exact parse_qsl_urlencode _
    refine ⟨hc1, hc2, ?_⟩
    by_cases hw0 : clean_url u = ""
    · rw [hw0]
      decide
    · have hcw2 := clean_url_ne_empty (clean_url u) hw0
      rw [hcw2, hc2, hc1]
      rw [List.filter_filter]
      simp only [Bool.and_self]
      exact hcw.symm


set_option maxRecDepth 8000 in
theorem clean_url_canonicalize_witness :
    WellFormedUrl "https://x.com/a?b=1&utm_z=2#f" ∧
    clean_url (clean_url "https://x.com/a?b=1&utm_z=2#f")
      = clean_url "https://x.com/a?b=1&utm_z=2#f" :=
  ⟨Or.inl (by decide),
    (clean_url_canonicalize "https://x.com/a?b=1&utm_z=2#f" (Or.inl (by decide))).2.2⟩
